import Mathlib

/-
  Shallow embedding of the two-level statistics LRU cache from
  statistics/handle/cache/internal/lru/lru_cache.go.

  The outer cache (StatsInnerCache) maps table ids to table records and keeps
  one inner-LRU entry per column and per index of every stored table.  The
  inner LRU (innerItemLruCache) is a cost-bounded list of
  (tableID, itemID, isIndex) entries, with most-recently-used entries at the
  front; eviction walks from the back.  Go's container/list is embedded as a
  Lean List with the front at the head; the three-level index
  elements[tblID][isIndex][id] always has exactly the keys of the live list
  nodes, so it is embedded as lookups over that list.  Go map iteration order
  is unspecified; the embedding fixes association-list order (the operations
  whose results the theorems below describe are insensitive to this order).
  Machine int64 arithmetic never overflows in the scenarios treated here, so
  costs and capacities are embedded as unbounded Int; mutexes and metrics
  counters have no observable effect on the cached data and are dropped.
-/

namespace StatsLru

/-- Modelled from the spec: `statistics.TableCacheItem` (external to this
repository) is an evictable column- or index-statistic.  Its tracked memory
is held in a list of chunks, costliest first; `dropEvicted` performs one
stage of eviction by discarding the first chunk (monotone shrinkage,
idempotent once everything is gone), `isAllEvicted` holds when no chunk
remains, and `free` is the untracked fixed overhead that only contributes to
total (not tracking) memory usage. -/
structure CacheItem where
  chunks : List Nat
  free : Nat
deriving DecidableEq

instance : Inhabited CacheItem := ⟨⟨[], 0⟩⟩

/-- Modelled from the spec: `CacheItemMemoryUsage.TrackingMemUsage()`,
the portion of the item's memory accounted against the capacity budget. -/
def CacheItem.trackingMemUsage (i : CacheItem) : Int := (i.chunks.sum : Int)

/-- Modelled from the spec: the item's total memory usage. -/
def CacheItem.totalMemUsage (i : CacheItem) : Int := ((i.chunks.sum + i.free : Nat) : Int)

/-- Modelled from the spec: `TableCacheItem.IsAllEvicted()`. -/
def CacheItem.isAllEvicted (i : CacheItem) : Bool := i.chunks.isEmpty

/-- Modelled from the spec: `statistics.DropEvicted` discards the most
expensive remaining part of the item. -/
def CacheItem.dropEvicted (i : CacheItem) : CacheItem := { i with chunks := i.chunks.tail }

/-- A table record: column id and index id association lists, each value a
reference into the external item heap (Go shares `TableCacheItem`s by
pointer; the embedding shares them by heap index). -/
structure Table where
  columns : List (Int × Nat)
  indices : List (Int × Nat)
deriving DecidableEq

/-- Modelled from the spec: `statistics.TableMemoryUsage`, with the total
usage and the per-column / per-index tracking usages. -/
structure TableMemoryUsage where
  totalMemUsage : Int
  columnsMemUsage : List (Int × Int)
  indicesMemUsage : List (Int × Int)
deriving DecidableEq

/-- Dereference an item heap slot (out-of-range slots read as the empty,
fully evicted item). -/
def heapItem (heap : List CacheItem) (r : Nat) : CacheItem := heap.getD r default

/-- Modelled from the spec: `Table.MemoryUsage()` recomputes the per-item
tracking usages and the total usage from the items' current state. -/
def Table.memoryUsage (heap : List CacheItem) (t : Table) : TableMemoryUsage :=
  { totalMemUsage :=
      (t.columns.map (fun p => (heapItem heap p.2).totalMemUsage)).sum
        + (t.indices.map (fun p => (heapItem heap p.2).totalMemUsage)).sum
    columnsMemUsage := t.columns.map (fun p => (p.1, (heapItem heap p.2).trackingMemUsage))
    indicesMemUsage := t.indices.map (fun p => (p.1, (heapItem heap p.2).trackingMemUsage)) }

/-- One node of the inner LRU list (`lruCacheItem`): its key triple, the
item reference (`innerItem`), and the stored memory usage (`innerMemUsage`,
reduced to its tracking component, the only part the cache reads). -/
structure Entry where
  tblID : Int
  id : Int
  isIndex : Bool
  itemRef : Nat
  innerMemUsage : Int
deriving DecidableEq

/-- One outer map value (`lruMapElement`). -/
structure OuterElem where
  tbl : Table
  tblMemUsage : TableMemoryUsage
deriving DecidableEq

/-- The whole cache state: the external item heap, the outer map
(`StatsInnerCache.elements`), and the inner LRU (`innerItemLruCache`) as the
node list front-first plus capacity and running cost. -/
structure State where
  heap : List CacheItem
  elements : List (Int × OuterElem)
  order : List Entry
  capacity : Int
  trackingCost : Int
deriving DecidableEq

/-- Key triple identifying an inner LRU node. -/
def entryKey (e : Entry) : Int × Int × Bool := (e.tblID, e.id, e.isIndex)

/-- Predicate matching the inner LRU node with the given key triple. -/
def matchKey (tblID id : Int) (isIndex : Bool) (e : Entry) : Bool :=
  e.tblID == tblID && e.isIndex == isIndex && e.id == id

/-- Lookup in the three-level index `elements[tblID][isIndex][id]`, which in
Go always holds exactly the keys of the live list nodes. -/
def findEntry (l : List Entry) (tblID id : Int) (isIndex : Bool) : Option Entry :=
  l.find? (matchKey tblID id isIndex)

/-- Remove the first element satisfying the predicate (list node removal). -/
def removeFirst (p : α → Bool) : List α → List α
  | [] => []
  | x :: xs => if p x then xs else x :: removeFirst p xs

/-- Update the first element satisfying the predicate in place. -/
def updFirst (p : α → Bool) (f : α → α) : List α → List α
  | [] => []
  | x :: xs => if p x then f x :: xs else x :: updFirst p f xs

/-- Sum of the stored tracking memory usages of the entries. -/
def innerCost (l : List Entry) : Int := (l.map Entry.innerMemUsage).sum

/-- The item ids tracked in the inner index for a table on one side
(column or index), i.e. the key set of `elements[tblID][isIndex]`. -/
def innerIds (l : List Entry) (tblID : Int) (isIndex : Bool) : List Int :=
  (l.filter (fun e => e.tblID == tblID && e.isIndex == isIndex)).map Entry.id

/-- Outer map lookup `s.elements[tblID]`. -/
def lookupElem (el : List (Int × OuterElem)) (tblID : Int) : Option OuterElem :=
  (el.find? (fun p => p.1 == tblID)).map Prod.snd

/-- Per-item memory lookup `tblMemUsage.ColumnsMemUsage[colID]` (always
present for the tables the cache constructs it from). -/
def memLookup (l : List (Int × Int)) (id : Int) : Int :=
  match l.find? (fun p => p.1 == id) with
  | some p => p.2
  | none => 0

def maxInt64 : Int := 9223372036854775807

/-- `NewStatsLruCache(c)` (together with `newInnerLruCache`): capacities
below 1 mean unbounded and become MaxInt64. -/
def newStatsLruCache (c : Int) (heap : List CacheItem) : State :=
  { heap := heap
    elements := []
    order := []
    capacity := if c < 1 then maxInt64 else c
    trackingCost := 0 }

/-- The `onEvict` callback wired by `NewStatsLruCache`: look the table up in
the outer map and, when present, recompute its cached `tblMemUsage`;
absent tables are left alone and nothing is ever removed. -/
def onEvictUpd (heap : List CacheItem) (tblID : Int)
    (el : List (Int × OuterElem)) : List (Int × OuterElem) :=
  match lookupElem el tblID with
  | none => el
  | some _ =>
      updFirst (fun p => p.1 == tblID)
        (fun p => (p.1, { p.2 with tblMemUsage := p.2.tbl.memoryUsage heap })) el

/-- The loop of `evictIfNeeded`, walking the list from the back (`backRev`
is the not-yet-visited part, back first) while the tracking cost exceeds the
capacity.  A visited entry has `DropEvicted` applied to its item, the cost
is adjusted by the recomputed usage minus the stored usage, and the entry is
removed when the new usage is 0 or the item is fully evicted, otherwise
moved to the front with its stored usage updated (`surv` holds the moved
survivors, which end up in front of the unvisited part); `onEvict` fires for
the entry's table, and the walk continues at the node that was the
predecessor before the mutation. -/
def evictLoop (cap : Int) : List Entry → List Entry → List CacheItem →
    List (Int × OuterElem) → Int → State
  | [], surv, heap, el, cost =>
      { heap := heap, elements := el, order := surv, capacity := cap, trackingCost := cost }
  | e :: rest, surv, heap, el, cost =>
      if cap < cost then
        let item := CacheItem.dropEvicted (heapItem heap e.itemRef)
        let heap2 := heap.set e.itemRef item
        let newMem := item.trackingMemUsage
        let cost2 := cost + (newMem - e.innerMemUsage)
        let surv2 := if newMem == 0 || item.isAllEvicted then surv
                     else { e with innerMemUsage := newMem } :: surv
        let el2 := onEvictUpd heap2 e.tblID el
        evictLoop cap rest surv2 heap2 el2 cost2
      else
        { heap := heap, elements := el, order := surv ++ (e :: rest).reverse,
          capacity := cap, trackingCost := cost }

/-- `evictIfNeeded`: start the walk at the back of the list. -/
def evictIfNeeded (st : State) : State :=
  evictLoop st.capacity st.order.reverse [] st.heap st.elements st.trackingCost

/-- Inner `get`: on hit move the node to the front; on miss do nothing. -/
def lruGet (st : State) (tblID id : Int) (isIndex : Bool) : State :=
  match findEntry st.order tblID id isIndex with
  | none => st
  | some e =>
      { st with order := e :: removeFirst (matchKey tblID id isIndex) st.order }

/-- Inner `del`: remove the node if present and subtract its stored
tracking usage from the running cost. -/
def lruDel (st : State) (tblID id : Int) (isIndex : Bool) : State :=
  match findEntry st.order tblID id isIndex with
  | none => st
  | some e =>
      { st with order := removeFirst (matchKey tblID id isIndex) st.order
                trackingCost := st.trackingCost + (0 - e.innerMemUsage) }

/-- The body of the inner `put`: skip items whose tracking usage is below 1,
update an existing node in place (moving it to the front only when
`needMove`), or push a new node at the front, adjusting the cost by new
minus old usage. -/
def lruPutBody (st : State) (tblID id : Int) (isIndex : Bool) (itemRef : Nat)
    (itemMem : Int) (needMove : Bool) : State :=
  if itemMem < 1 then st
  else
    match findEntry st.order tblID id isIndex with
    | some e =>
        { st with
            order :=
              if needMove then
                { e with itemRef := itemRef, innerMemUsage := itemMem }
                  :: removeFirst (matchKey tblID id isIndex) st.order
              else
                updFirst (matchKey tblID id isIndex)
                  (fun e0 => { e0 with itemRef := itemRef, innerMemUsage := itemMem }) st.order
            trackingCost := st.trackingCost + (itemMem - e.innerMemUsage) }
    | none =>
        { st with
            order := ⟨tblID, id, isIndex, itemRef, itemMem⟩ :: st.order
            trackingCost := st.trackingCost + (itemMem - 0) }

/-- Inner `put`: the body above, followed by the deferred `evictIfNeeded`
whenever `needEvict` — the defer fires on the skip path as well. -/
def lruPut (st : State) (tblID id : Int) (isIndex : Bool) (itemRef : Nat)
    (itemMem : Int) (needEvict needMove : Bool) : State :=
  if needEvict then evictIfNeeded (lruPutBody st tblID id isIndex itemRef itemMem needMove)
  else lruPutBody st tblID id isIndex itemRef itemMem needMove

/-- The diff-delete phase shared by `updateColumns` and `updateIndices`:
when an outer entry exists, delete from the inner LRU every tracked id on
the given side that no longer appears in the new table's id list. -/
def delDiff (st : State) (tblID : Int) (isIndex : Bool) (newIds : List (Int × Nat)) : State :=
  match lookupElem st.elements tblID with
  | some _ =>
      let oldIds := innerIds st.order tblID isIndex
      let deleted := oldIds.filter (fun oldID => (newIds.find? (fun p => p.1 == oldID)).isNone)
      deleted.foldl (fun acc i => lruDel acc tblID i isIndex) st
  | none => st

/-- `updateColumns`: when an outer entry exists, delete the tracked column
ids that no longer appear in the new table, then `put` every column of the
new table with its memory from the precomputed table usage. -/
def updateColumns (st : State) (tblID : Int) (tbl : Table)
    (tblMemUsage : TableMemoryUsage) (needMove : Bool) : State :=
  tbl.columns.foldl
    (fun acc p => lruPut acc tblID p.1 false p.2 (memLookup tblMemUsage.columnsMemUsage p.1) true needMove)
    (delDiff st tblID false tbl.columns)

/-- `updateIndices`: symmetric to `updateColumns`. -/
def updateIndices (st : State) (tblID : Int) (tbl : Table)
    (tblMemUsage : TableMemoryUsage) (needMove : Bool) : State :=
  tbl.indices.foldl
    (fun acc p => lruPut acc tblID p.1 true p.2 (memLookup tblMemUsage.indicesMemUsage p.1) true needMove)
    (delDiff st tblID true tbl.indices)

/-- Internal `put` on the outer cache: update columns and indices against
the inner LRU, then store the table with a freshly recomputed memory usage
(evictions during the update may have changed it). -/
def putInner (st : State) (tblID : Int) (tbl : Table)
    (tblMemUsage : TableMemoryUsage) (needMove : Bool) : State :=
  match lookupElem st.elements tblID with
  | some _ =>
      let st1 := updateColumns st tblID tbl tblMemUsage needMove
      let st2 := updateIndices st1 tblID tbl tblMemUsage needMove
      { st2 with
          elements :=
            updFirst (fun p => p.1 == tblID)
              (fun p => (p.1, { tbl := tbl, tblMemUsage := tbl.memoryUsage st2.heap }))
              st2.elements }
  | none =>
      let st1 := updateColumns st tblID tbl tblMemUsage needMove
      let st2 := updateIndices st1 tblID tbl tblMemUsage needMove
      { st2 with
          elements :=
            (tblID, { tbl := tbl, tblMemUsage := tbl.memoryUsage st2.heap }) :: st2.elements }

/-- Public `Put`: compute the table's memory usage and run the internal put. -/
def Put (st : State) (tblID : Int) (tbl : Table) (needMove : Bool) : State :=
  putInner st tblID tbl (tbl.memoryUsage st.heap) needMove

/-- `getByQuery`: on hit touch every index id and then every column id of
the table in the inner LRU, returning the stored table. -/
def getByQuery (st : State) (tblID : Int) : Option Table × State :=
  match lookupElem st.elements tblID with
  | none => (none, st)
  | some elem =>
      (some elem.tbl,
        (elem.tbl.columns.map Prod.fst).foldl (fun acc colID => lruGet acc tblID colID false)
          ((elem.tbl.indices.map Prod.fst).foldl (fun acc idxID => lruGet acc tblID idxID true) st))

/-- Public `Get`: a plain lookup when `moveLRUFront` is false, `getByQuery`
otherwise. -/
def Get (st : State) (tblID : Int) (moveLRUFront : Bool) : Option Table × State :=
  if moveLRUFront then getByQuery st tblID
  else
    match lookupElem st.elements tblID with
    | none => (none, st)
    | some elem => (some elem.tbl, st)

/-- Public `Del`: drop every index id and column id of the stored table
from the inner LRU, then remove the outer entry. -/
def Del (st : State) (tblID : Int) : State :=
  match lookupElem st.elements tblID with
  | none => st
  | some elem =>
      let st2 := (elem.tbl.columns.map Prod.fst).foldl
        (fun acc colID => lruDel acc tblID colID false)
        ((elem.tbl.indices.map Prod.fst).foldl (fun acc idxID => lruDel acc tblID idxID true) st)
      { st2 with elements := removeFirst (fun p => p.1 == tblID) st2.elements }

/-- Public `Cost`: the inner LRU's running tracking cost. -/
def Cost (st : State) : Int := st.trackingCost

/-- Public `Len`: the number of outer entries. -/
def Len (st : State) : Nat := st.elements.length

/-- Public `Keys`. -/
def KeysOf (st : State) : List Int := st.elements.map Prod.fst

/-- Public `Front`: the tableID of the front inner node, or 0 if empty. -/
def Front (st : State) : Int :=
  match st.order with
  | [] => 0
  | e :: _ => e.tblID

/-- Public `SetCapacity`: capacities below 1 become MaxInt64, then evict. -/
def SetCapacity (st : State) (c : Int) : State :=
  evictIfNeeded { st with capacity := if c < 1 then maxInt64 else c }

/-- `freshTableCost`: recompute one outer entry's memory usage and re-put
its table (without moving) so the inner LRU sees up-to-date costs. -/
def freshTableCost (st : State) (tblID : Int) : State :=
  match lookupElem st.elements tblID with
  | none => st
  | some elem =>
      let mem := elem.tbl.memoryUsage st.heap
      let st1 :=
        { st with
            elements :=
              updFirst (fun p => p.1 == tblID)
                (fun p => (p.1, { p.2 with tblMemUsage := mem })) st.elements }
      putInner st1 tblID elem.tbl mem false

/-- One iteration of `TotalCost`: refresh the entry, then read its updated
total memory usage back from the outer map. -/
def totalStep (acc : Int × State) (tblID : Int) : Int × State :=
  match lookupElem (freshTableCost acc.2 tblID).elements tblID with
  | none => (acc.1, freshTableCost acc.2 tblID)
  | some elem => (acc.1 + elem.tblMemUsage.totalMemUsage, freshTableCost acc.2 tblID)

/-- Public `TotalCost`: refresh every outer entry in turn, accumulating the
refreshed total memory usages. -/
def TotalCost (st : State) : Int × State :=
  (st.elements.map Prod.fst).foldl totalStep (0, st)

/-- Public `Copy`: a fresh cache with the same (renormalized) capacity whose
inner LRU is rebuilt by re-putting every node from the back to the front
with `needEvict` and `needMove` both false, sharing the items and keeping
the outer entries (shallow element copies). -/
def Copy (st : State) : State :=
  st.order.reverse.foldl
    (fun acc e => lruPut acc e.tblID e.id e.isIndex e.itemRef e.innerMemUsage false false)
    { heap := st.heap, elements := st.elements, order := []
      capacity := if st.capacity < 1 then maxInt64 else st.capacity, trackingCost := 0 }

/-- States reachable from a fresh cache over a given external item heap by
the public operations. -/
inductive Reachable (h0 : List CacheItem) : State → Prop where
  | init (c : Int) : Reachable h0 (newStatsLruCache c h0)
  | put {s : State} (tblID : Int) (tbl : Table) (mv : Bool) :
      Reachable h0 s → Reachable h0 (Put s tblID tbl mv)
  | get {s : State} (tblID : Int) (mv : Bool) :
      Reachable h0 s → Reachable h0 (Get s tblID mv).2
  | del {s : State} (tblID : Int) :
      Reachable h0 s → Reachable h0 (Del s tblID)
  | setCap {s : State} (c : Int) :
      Reachable h0 s → Reachable h0 (SetCapacity s c)
  | total {s : State} :
      Reachable h0 s → Reachable h0 (TotalCost s).2
  | copy {s : State} :
      Reachable h0 s → Reachable h0 (Copy s)

/-! Basic facts about the list helpers. -/

theorem innerCost_nil : innerCost [] = 0 := rfl

theorem innerCost_cons (e : Entry) (l : List Entry) :
    innerCost (e :: l) = e.innerMemUsage + innerCost l := by
  simp [innerCost]

theorem innerCost_append (l1 l2 : List Entry) :
    innerCost (l1 ++ l2) = innerCost l1 + innerCost l2 := by
  simp [innerCost]

theorem innerCost_reverse (l : List Entry) : innerCost l.reverse = innerCost l := by
  simp only [innerCost, List.map_reverse]
  exact List.sum_reverse _

theorem removeFirst_sublist (p : α → Bool) (l : List α) :
    List.Sublist (removeFirst p l) l := by
  induction l with
  | nil => simp [removeFirst]
  | cons x xs ih =>
      simp only [removeFirst]
      split
      · exact List.sublist_cons_self x xs
      · exact ih.cons₂ x

theorem mem_of_mem_removeFirst {p : α → Bool} {l : List α} {x : α}
    (h : x ∈ removeFirst p l) : x ∈ l :=
  (removeFirst_sublist p l).subset h

theorem innerCost_removeFirst {p : Entry → Bool} {l : List Entry} {e : Entry}
    (h : l.find? p = some e) :
    innerCost (removeFirst p l) = innerCost l - e.innerMemUsage := by
  induction l with
  | nil => simp at h
  | cons x xs ih =>
      by_cases hp : p x
      · rw [List.find?_cons_of_pos _ hp] at h
        cases h
        simp [removeFirst, hp, innerCost_cons]
      · rw [List.find?_cons_of_neg _ hp] at h
        simp only [removeFirst]
        rw [if_neg hp]
        simp only [innerCost_cons]
        rw [ih h]
        ring

theorem mem_updFirst {p : α → Bool} {f : α → α} {l : List α} {x : α}
    (h : x ∈ updFirst p f l) : x ∈ l ∨ ∃ y ∈ l, p y = true ∧ x = f y := by
  induction l with
  | nil => simp [updFirst] at h
  | cons a as ih =>
      simp only [updFirst] at h
      by_cases hp : p a
      · rw [if_pos hp] at h
        rcases List.mem_cons.mp h with h | h
        · exact Or.inr ⟨a, List.mem_cons_self a as, hp, h⟩
        · exact Or.inl (List.mem_cons_of_mem a h)
      · rw [if_neg hp] at h
        rcases List.mem_cons.mp h with h | h
        · exact Or.inl (h ▸ List.mem_cons_self a as)
        · rcases ih h with h | ⟨y, hy, hpy, hxy⟩
          · exact Or.inl (List.mem_cons_of_mem a h)
          · exact Or.inr ⟨y, List.mem_cons_of_mem a hy, hpy, hxy⟩

theorem innerCost_updFirst {p : Entry → Bool} {f : Entry → Entry} {l : List Entry} {e : Entry}
    (h : l.find? p = some e) :
    innerCost (updFirst p f l) = innerCost l - e.innerMemUsage + (f e).innerMemUsage := by
  induction l with
  | nil => simp at h
  | cons x xs ih =>
      by_cases hp : p x
      · rw [List.find?_cons_of_pos _ hp] at h
        cases h
        simp only [updFirst, hp, if_pos, innerCost_cons]
        ring
      · rw [List.find?_cons_of_neg _ hp] at h
        simp only [updFirst]
        rw [if_neg hp]
        simp only [innerCost_cons]
        rw [ih h]
        ring

theorem updFirst_map_eq {p : α → Bool} {f : α → α} (g : α → β)
    (hf : ∀ x, p x = true → g (f x) = g x) (l : List α) :
    (updFirst p f l).map g = l.map g := by
  induction l with
  | nil => rfl
  | cons x xs ih =>
      simp only [updFirst]
      by_cases hp : p x
      · rw [if_pos hp]
        simp [hf x hp]
      · rw [if_neg hp]
        simp [ih]

theorem find?_updFirst_self {p : α → Bool} {f : α → α} {l : List α} {a : α}
    (h : l.find? p = some a) (hp : p (f a) = true) :
    (updFirst p f l).find? p = some (f a) := by
  induction l with
  | nil => simp at h
  | cons x xs ih =>
      by_cases hx : p x
      · rw [List.find?_cons_of_pos _ hx] at h
        cases h
        simp only [updFirst, hx, if_pos]
        rw [List.find?_cons_of_pos _ hp]
      · rw [List.find?_cons_of_neg _ hx] at h
        simp only [updFirst]
        rw [if_neg hx]
        rw [List.find?_cons_of_neg _ hx]
        exact ih h

theorem find?_updFirst_disjoint {p q : α → Bool} {f : α → α} (l : List α)
    (hq : ∀ x, q (f x) = q x) (hdisj : ∀ x, p x = true → q x = false) :
    (updFirst p f l).find? q = l.find? q := by
  induction l with
  | nil => rfl
  | cons x xs ih =>
      simp only [updFirst]
      by_cases hx : p x
      · rw [if_pos hx]
        have hqx : q x = false := hdisj x hx
        rw [List.find?_cons_of_neg _ (by simp [hq x, hqx]),
            List.find?_cons_of_neg _ (by simp [hqx])]
      · rw [if_neg hx]
        by_cases hqx : q x
        · rw [List.find?_cons_of_pos _ hqx, List.find?_cons_of_pos _ hqx]
        · rw [List.find?_cons_of_neg _ (by simpa using hqx),
              List.find?_cons_of_neg _ (by simpa using hqx)]
          exact ih

theorem find?_removeFirst_disjoint {p q : α → Bool} (l : List α)
    (hdisj : ∀ x, p x = true → q x = false) :
    (removeFirst p l).find? q = l.find? q := by
  induction l with
  | nil => rfl
  | cons x xs ih =>
      simp only [removeFirst]
      by_cases hx : p x
      · rw [if_pos hx]
        have hqx : q x = false := hdisj x hx
        rw [List.find?_cons_of_neg _ (by simp [hqx])]
      · rw [if_neg hx]
        by_cases hqx : q x
        · rw [List.find?_cons_of_pos _ hqx, List.find?_cons_of_pos _ hqx]
        · rw [List.find?_cons_of_neg _ (by simpa using hqx),
              List.find?_cons_of_neg _ (by simpa using hqx)]
          exact ih

theorem matchKey_iff {t i : Int} {ix : Bool} {e : Entry} :
    matchKey t i ix e = true ↔ entryKey e = (t, i, ix) := by
  simp only [matchKey, entryKey, Bool.and_eq_true, beq_iff_eq, Prod.mk.injEq]
  tauto

theorem not_mem_keys_removeFirst {l : List Entry} {t i : Int} {ix : Bool}
    (hn : (l.map entryKey).Nodup) {x : Entry}
    (hx : x ∈ removeFirst (matchKey t i ix) l) : entryKey x ≠ (t, i, ix) := by
  induction l with
  | nil => simp [removeFirst] at hx
  | cons a as ih =>
      simp only [List.map_cons, List.nodup_cons] at hn
      simp only [removeFirst] at hx
      by_cases ha : matchKey t i ix a
      · rw [if_pos ha] at hx
        have hka : entryKey a = (t, i, ix) := matchKey_iff.mp ha
        intro hkx
        exact hn.1 (hka ▸ hkx ▸ List.mem_map_of_mem entryKey hx)
      · rw [if_neg ha] at hx
        rcases List.mem_cons.mp hx with h | h
        · subst h
          intro hkx
          exact ha (matchKey_iff.mpr hkx)
        · exact ih hn.2 h

/-! The outer-map shape (keys and stored tables) preserved by eviction. -/

/-- Key and table of an outer pair; eviction may refresh `tblMemUsage` but
never changes this shape. -/
def shapeF (p : Int × OuterElem) : Int × Table := (p.1, p.2.tbl)

theorem onEvictUpd_shape (heap : List CacheItem) (tblID : Int)
    (el : List (Int × OuterElem)) :
    (onEvictUpd heap tblID el).map shapeF = el.map shapeF := by
  unfold onEvictUpd
  split
  · rfl
  · apply updFirst_map_eq shapeF
    intro x hx
    rfl

theorem find?_elem_map_shape (el : List (Int × OuterElem)) (k : Int) :
    (el.map shapeF).find? (fun p => p.1 == k)
      = (el.find? (fun p => p.1 == k)).map shapeF := by
  rw [List.find?_map]
  rfl

theorem find?_shape_eq {el el' : List (Int × OuterElem)}
    (h : el.map shapeF = el'.map shapeF) (k : Int) :
    (el.find? (fun p => p.1 == k)).map shapeF
      = (el'.find? (fun p => p.1 == k)).map shapeF := by
  rw [← find?_elem_map_shape, ← find?_elem_map_shape, h]

theorem lookup_tbl_of_shape {el el' : List (Int × OuterElem)}
    (h : el.map shapeF = el'.map shapeF) (k : Int) :
    (lookupElem el k).map OuterElem.tbl = (lookupElem el' k).map OuterElem.tbl := by
  have h3 := find?_shape_eq h k
  unfold lookupElem
  cases hA : el.find? (fun p => p.1 == k) <;> cases hB : el'.find? (fun p => p.1 == k) <;>
    rw [hA, hB] at h3 <;> simp_all [shapeF, Prod.ext_iff]

theorem lookup_isSome_of_shape {el el' : List (Int × OuterElem)}
    (h : el.map shapeF = el'.map shapeF) (k : Int) :
    (lookupElem el k).isSome = (lookupElem el' k).isSome := by
  have h3 := find?_shape_eq h k
  unfold lookupElem
  cases hA : el.find? (fun p => p.1 == k) <;> cases hB : el'.find? (fun p => p.1 == k) <;>
    rw [hA, hB] at h3 <;> simp_all

/-- The entry's key is covered by the outer map: its table is present and
the entry's id appears among that table's indices or columns. -/
def CoverT (el : List (Int × OuterElem)) (e : Entry) : Prop :=
  ∃ elem, lookupElem el e.tblID = some elem ∧
    e.id ∈ (if e.isIndex then elem.tbl.indices else elem.tbl.columns).map Prod.fst

theorem CoverT_of_shape {el el' : List (Int × OuterElem)}
    (h : el.map shapeF = el'.map shapeF) {e : Entry}
    (hc : CoverT el e) : CoverT el' e := by
  obtain ⟨elem, hl, hm⟩ := hc
  have htbl := lookup_tbl_of_shape h e.tblID
  rw [hl] at htbl
  cases hB : lookupElem el' e.tblID with
  | none => rw [hB] at htbl; simp at htbl
  | some elem' =>
      rw [hB] at htbl
      simp only [Option.map_some'] at htbl
      injection htbl with htbl
      exact ⟨elem', hB, by rw [← htbl]; exact hm⟩

theorem CoverT_of_key {el : List (Int × OuterElem)} {e e' : Entry}
    (h : entryKey e' = entryKey e) (hc : CoverT el e) : CoverT el e' := by
  obtain ⟨elem, hl, hm⟩ := hc
  obtain ⟨h1, h2, h3⟩ : e'.tblID = e.tblID ∧ e'.id = e.id ∧ e'.isIndex = e.isIndex := by
    simpa [entryKey, Prod.ext_iff] using h
  exact ⟨elem, by rw [h1]; exact hl, by rw [h2, h3]; exact hm⟩

/-! Facts about the eviction walk. -/

theorem isAllEvicted_tracking {i : CacheItem} (h : i.isAllEvicted = true) :
    i.trackingMemUsage = 0 := by
  unfold CacheItem.isAllEvicted at h
  unfold CacheItem.trackingMemUsage
  rw [List.isEmpty_iff] at h
  simp [h]

theorem remove_cond_mem_zero {i : CacheItem}
    (h : (i.trackingMemUsage == 0 || i.isAllEvicted) = true) :
    i.trackingMemUsage = 0 := by
  rcases (by simpa using h : i.trackingMemUsage == 0 ∨ i.isAllEvicted = true) with h | h
  · exact beq_iff_eq.mp h
  · exact isAllEvicted_tracking h

theorem evictLoop_capacity (cap : Int) (b surv : List Entry) (heap : List CacheItem)
    (el : List (Int × OuterElem)) (cost : Int) :
    (evictLoop cap b surv heap el cost).capacity = cap := by
  induction b generalizing surv heap el cost with
  | nil => rfl
  | cons e rest ih =>
      simp only [evictLoop]
      split
      · exact ih ..
      · rfl

theorem evictLoop_heap_eq_or (cap : Int) (b surv : List Entry) (heap : List CacheItem)
    (el : List (Int × OuterElem)) (cost : Int) :
    (evictLoop cap b surv heap el cost).elements.map shapeF = el.map shapeF := by
  induction b generalizing surv heap el cost with
  | nil => rfl
  | cons e rest ih =>
      simp only [evictLoop]
      split
      · rw [ih]
        exact onEvictUpd_shape ..
      · rfl

theorem evictLoop_cost (cap : Int) (b : List Entry) :
    ∀ (surv : List Entry) (heap : List CacheItem) (el : List (Int × OuterElem)) (cost : Int),
    cost = innerCost surv + innerCost b →
    (evictLoop cap b surv heap el cost).trackingCost
      = innerCost (evictLoop cap b surv heap el cost).order := by
  induction b with
  | nil =>
      intro surv heap el cost hc
      simpa [evictLoop, innerCost_nil] using hc
  | cons e rest ih =>
      intro surv heap el cost hc
      simp only [evictLoop]
      split
      · by_cases hrem :
          ((CacheItem.dropEvicted (heapItem heap e.itemRef)).trackingMemUsage == 0
            || (CacheItem.dropEvicted (heapItem heap e.itemRef)).isAllEvicted) = true
        · rw [if_pos hrem]
          apply ih
          rw [remove_cond_mem_zero hrem, hc, innerCost_cons]
          ring
        · rw [if_neg hrem]
          apply ih
          simp only [innerCost_cons, hc]
          ring
      · simp only [innerCost_append, innerCost_reverse, innerCost_cons, hc]

theorem evictLoop_nodup (cap : Int) (b : List Entry) :
    ∀ (surv : List Entry) (heap : List CacheItem) (el : List (Int × OuterElem)) (cost : Int),
    ((surv ++ b).map entryKey).Nodup →
    ((evictLoop cap b surv heap el cost).order.map entryKey).Nodup := by
  induction b with
  | nil =>
      intro surv heap el cost hn
      simpa [evictLoop] using hn
  | cons e rest ih =>
      intro surv heap el cost hn
      simp only [evictLoop]
      split
      · split
        · apply ih
          have hsub : List.Sublist (surv ++ rest) (surv ++ e :: rest) :=
            (List.sublist_cons_self e rest).append_left surv
          exact hn.sublist (hsub.map entryKey)
        · apply ih
          have hperm : List.Perm
              ((({ e with innerMemUsage :=
                    (CacheItem.dropEvicted (heapItem heap e.itemRef)).trackingMemUsage } :: surv)
                  ++ rest).map entryKey)
              ((surv ++ e :: rest).map entryKey) := by
            have : entryKey { e with innerMemUsage :=
                (CacheItem.dropEvicted (heapItem heap e.itemRef)).trackingMemUsage } = entryKey e := rfl
            simp only [List.cons_append, List.map_cons, List.map_append, this]
            exact List.perm_middle.symm
          exact hperm.nodup_iff.mpr hn
      · have hperm : List.Perm ((surv ++ (e :: rest).reverse).map entryKey)
            ((surv ++ e :: rest).map entryKey) :=
          (((e :: rest).reverse_perm).append_left surv).map entryKey
        exact hperm.nodup_iff.mpr hn

theorem evictLoop_memPos (cap : Int) (b : List Entry) :
    ∀ (surv : List Entry) (heap : List CacheItem) (el : List (Int × OuterElem)) (cost : Int),
    (∀ x ∈ surv ++ b, 1 ≤ x.innerMemUsage) →
    ∀ x ∈ (evictLoop cap b surv heap el cost).order, 1 ≤ x.innerMemUsage := by
  induction b with
  | nil =>
      intro surv heap el cost hp x hx
      exact hp x (by simpa [evictLoop] using hx)
  | cons e rest ih =>
      intro surv heap el cost hp
      simp only [evictLoop]
      split
      · split
        · exact ih _ _ _ _ (fun x hx => hp x
            (((List.sublist_cons_self e rest).append_left surv).subset hx))
        · rename_i hcond
          apply ih
          intro x hx
          rcases List.mem_append.mp hx with hx | hx
          · rcases List.mem_cons.mp hx with rfl | hx
            · have hne : ¬ ((CacheItem.dropEvicted (heapItem heap e.itemRef)).trackingMemUsage == 0
                  || (CacheItem.dropEvicted (heapItem heap e.itemRef)).isAllEvicted) = true := hcond
              have h0 : ¬ (CacheItem.dropEvicted (heapItem heap e.itemRef)).trackingMemUsage = 0 := by
                intro h0
                exact hne (by simp [h0])
              have hnn : 0 ≤ (CacheItem.dropEvicted (heapItem heap e.itemRef)).trackingMemUsage :=
                Int.ofNat_nonneg _
              show 1 ≤ (CacheItem.dropEvicted (heapItem heap e.itemRef)).trackingMemUsage
              omega
            · exact hp x (List.mem_append.mpr (Or.inl hx))
          · exact hp x (List.mem_append.mpr (Or.inr (List.mem_cons_of_mem e hx)))
      · intro x hx
        rcases List.mem_append.mp hx with hx | hx
        · exact hp x (List.mem_append.mpr (Or.inl hx))
        · exact hp x (List.mem_append.mpr (Or.inr (List.mem_reverse.mp hx)))

theorem evictLoop_prov (cap : Int) (b : List Entry) :
    ∀ (surv : List Entry) (heap : List CacheItem) (el : List (Int × OuterElem)) (cost : Int),
    ∀ x ∈ (evictLoop cap b surv heap el cost).order,
      ∃ y ∈ surv ++ b, entryKey x = entryKey y := by
  induction b with
  | nil =>
      intro surv heap el cost x hx
      exact ⟨x, by simpa [evictLoop] using hx, rfl⟩
  | cons e rest ih =>
      intro surv heap el cost
      simp only [evictLoop]
      split
      · split
        · intro x hx
          obtain ⟨y, hy, hk⟩ := ih _ _ _ _ x hx
          exact ⟨y, (((List.sublist_cons_self e rest).append_left surv).subset) hy, hk⟩
        · intro x hx
          obtain ⟨y, hy, hk⟩ := ih _ _ _ _ x hx
          rcases List.mem_append.mp hy with hy | hy
          · rcases List.mem_cons.mp hy with rfl | hy
            · exact ⟨e, List.mem_append.mpr (Or.inr (List.mem_cons_self e rest)), hk⟩
            · exact ⟨y, List.mem_append.mpr (Or.inl hy), hk⟩
          · exact ⟨y, List.mem_append.mpr (Or.inr (List.mem_cons_of_mem e hy)), hk⟩
      · intro x hx
        rcases List.mem_append.mp hx with hx | hx
        · exact ⟨x, List.mem_append.mpr (Or.inl hx), rfl⟩
        · exact ⟨x, List.mem_append.mpr (Or.inr (List.mem_reverse.mp hx)), rfl⟩

/-! The bookkeeping invariant of the inner LRU and its preservation. -/

/-- Core bookkeeping invariant: the running cost equals the sum of the
stored usages, node keys are distinct, stored usages are at least 1, and
the capacity is at least 1. -/
structure Inv0 (s : State) : Prop where
  cost_eq : s.trackingCost = innerCost s.order
  nodup : (s.order.map entryKey).Nodup
  memPos : ∀ e ∈ s.order, 1 ≤ e.innerMemUsage
  capPos : 1 ≤ s.capacity

theorem evictIfNeeded_capacity (st : State) :
    (evictIfNeeded st).capacity = st.capacity := by
  unfold evictIfNeeded
  exact evictLoop_capacity ..

theorem evictIfNeeded_shape (st : State) :
    (evictIfNeeded st).elements.map shapeF = st.elements.map shapeF := by
  unfold evictIfNeeded
  exact evictLoop_heap_eq_or ..

theorem evictIfNeeded_prov (st : State) :
    ∀ x ∈ (evictIfNeeded st).order, ∃ y ∈ st.order, entryKey x = entryKey y := by
  intro x hx
  obtain ⟨y, hy, hk⟩ := evictLoop_prov st.capacity st.order.reverse [] st.heap st.elements
    st.trackingCost x hx
  exact ⟨y, List.mem_reverse.mp (by simpa using hy), hk⟩

theorem evictIfNeeded_inv0 {st : State} (h : Inv0 st) : Inv0 (evictIfNeeded st) := by
  unfold evictIfNeeded
  constructor
  · apply evictLoop_cost
    rw [innerCost_nil, innerCost_reverse, h.cost_eq]
    ring
  · apply evictLoop_nodup
    simp only [List.nil_append, List.map_reverse]
    exact List.nodup_reverse.mpr h.nodup
  · apply evictLoop_memPos
    intro x hx
    exact h.memPos x (List.mem_reverse.mp (by simpa using hx))
  · rw [evictLoop_capacity]
    exact h.capPos

theorem evictIfNeeded_pred {st : State} (P : List (Int × OuterElem) → Entry → Prop)
    (hshape : ∀ {el el' : List (Int × OuterElem)} {e : Entry},
      el.map shapeF = el'.map shapeF → P el e → P el' e)
    (hkey : ∀ {el : List (Int × OuterElem)} {e e' : Entry},
      entryKey e' = entryKey e → P el e → P el e')
    (h : ∀ e ∈ st.order, P st.elements e) :
    ∀ e ∈ (evictIfNeeded st).order, P (evictIfNeeded st).elements e := by
  intro x hx
  obtain ⟨y, hy, hk⟩ := evictIfNeeded_prov st x hx
  exact hshape (evictIfNeeded_shape st).symm (hkey hk (h y hy))

/-! Inner `get`. -/

theorem lruGet_elements (st : State) (t i : Int) (ix : Bool) :
    (lruGet st t i ix).elements = st.elements := by
  unfold lruGet
  split <;> rfl

theorem lruGet_heap (st : State) (t i : Int) (ix : Bool) :
    (lruGet st t i ix).heap = st.heap := by
  unfold lruGet
  split <;> rfl

theorem lruGet_capacity (st : State) (t i : Int) (ix : Bool) :
    (lruGet st t i ix).capacity = st.capacity := by
  unfold lruGet
  split <;> rfl

theorem lruGet_cost (st : State) (t i : Int) (ix : Bool) :
    (lruGet st t i ix).trackingCost = st.trackingCost := by
  unfold lruGet
  split <;> rfl

theorem lruGet_order_subset (st : State) (t i : Int) (ix : Bool) :
    ∀ x ∈ (lruGet st t i ix).order, x ∈ st.order := by
  unfold lruGet
  split
  · exact fun x hx => hx
  · rename_i e he
    intro x hx
    rcases List.mem_cons.mp hx with rfl | hx
    · exact List.mem_of_find?_eq_some he
    · exact mem_of_mem_removeFirst hx

theorem lruGet_inv0 {st : State} (h : Inv0 st) (t i : Int) (ix : Bool) :
    Inv0 (lruGet st t i ix) := by
  unfold lruGet
  cases hf : findEntry st.order t i ix with
  | none => exact h
  | some e =>
      have he : st.order.find? (matchKey t i ix) = some e := hf
      have hkey : entryKey e = (t, i, ix) := matchKey_iff.mp (List.find?_some he)
      constructor
      · simp only [innerCost_cons]
        rw [innerCost_removeFirst he, h.cost_eq]
        ring
      · simp only [List.map_cons, List.nodup_cons]
        refine ⟨?_, h.nodup.sublist ((removeFirst_sublist _ _).map entryKey)⟩
        intro hmem
        obtain ⟨x, hx, hkx⟩ := List.mem_map.mp hmem
        exact not_mem_keys_removeFirst h.nodup hx (hkx.trans hkey)
      · intro x hx
        rcases List.mem_cons.mp hx with rfl | hx
        · exact h.memPos x (List.mem_of_find?_eq_some he)
        · exact h.memPos x (mem_of_mem_removeFirst hx)
      · exact h.capPos

/-! Inner `del`. -/

theorem lruDel_elements (st : State) (t i : Int) (ix : Bool) :
    (lruDel st t i ix).elements = st.elements := by
  unfold lruDel
  split <;> rfl

theorem lruDel_heap (st : State) (t i : Int) (ix : Bool) :
    (lruDel st t i ix).heap = st.heap := by
  unfold lruDel
  split <;> rfl

theorem lruDel_capacity (st : State) (t i : Int) (ix : Bool) :
    (lruDel st t i ix).capacity = st.capacity := by
  unfold lruDel
  split <;> rfl

theorem lruDel_order_subset (st : State) (t i : Int) (ix : Bool) :
    ∀ x ∈ (lruDel st t i ix).order, x ∈ st.order := by
  unfold lruDel
  split
  · exact fun x hx => hx
  · exact fun x hx => mem_of_mem_removeFirst hx

theorem lruDel_inv0 {st : State} (h : Inv0 st) (t i : Int) (ix : Bool) :
    Inv0 (lruDel st t i ix) := by
  unfold lruDel
  cases hf : findEntry st.order t i ix with
  | none => exact h
  | some e =>
      have he : st.order.find? (matchKey t i ix) = some e := hf
      constructor
      · rw [innerCost_removeFirst he, h.cost_eq]
        ring
      · exact h.nodup.sublist ((removeFirst_sublist _ _).map entryKey)
      · exact fun x hx => h.memPos x (mem_of_mem_removeFirst hx)
      · exact h.capPos

/-- After deleting key `(t, i, ix)` no node with that key remains. -/
theorem lruDel_clears {st : State} (h : Inv0 st) (t i : Int) (ix : Bool) :
    ∀ x ∈ (lruDel st t i ix).order, entryKey x ≠ (t, i, ix) := by
  unfold lruDel
  cases hf : findEntry st.order t i ix with
  | none =>
      intro x hx hk
      have := List.find?_eq_none.mp hf x hx
      exact this (matchKey_iff.mpr hk)
  | some e =>
      intro x hx
      exact not_mem_keys_removeFirst h.nodup hx

/-! Inner `put`. -/

theorem lruPutBody_elements (st : State) (t i : Int) (ix : Bool) (r : Nat)
    (m : Int) (nm : Bool) : (lruPutBody st t i ix r m nm).elements = st.elements := by
  unfold lruPutBody
  split
  · rfl
  · split <;> rfl

theorem lruPutBody_heap (st : State) (t i : Int) (ix : Bool) (r : Nat)
    (m : Int) (nm : Bool) : (lruPutBody st t i ix r m nm).heap = st.heap := by
  unfold lruPutBody
  split
  · rfl
  · split <;> rfl

theorem lruPutBody_capacity (st : State) (t i : Int) (ix : Bool) (r : Nat)
    (m : Int) (nm : Bool) : (lruPutBody st t i ix r m nm).capacity = st.capacity := by
  unfold lruPutBody
  split
  · rfl
  · split <;> rfl

theorem lruPutBody_prov (st : State) (t i : Int) (ix : Bool) (r : Nat)
    (m : Int) (nm : Bool) :
    ∀ x ∈ (lruPutBody st t i ix r m nm).order, x ∈ st.order ∨ entryKey x = (t, i, ix) := by
  unfold lruPutBody
  split
  · exact fun x hx => Or.inl hx
  · split
    · rename_i e he
      have hkey : entryKey e = (t, i, ix) := matchKey_iff.mp (List.find?_some he)
      intro x hx
      split at hx
      · rcases List.mem_cons.mp hx with rfl | hx
        · exact Or.inr hkey
        · exact Or.inl (mem_of_mem_removeFirst hx)
      · rcases mem_updFirst hx with hx | ⟨y, hy, hpy, rfl⟩
        · exact Or.inl hx
        · exact Or.inr (matchKey_iff.mp hpy)
    · intro x hx
      rcases List.mem_cons.mp hx with rfl | hx
      · exact Or.inr rfl
      · exact Or.inl hx

theorem lruPutBody_inv0 {st : State} (h : Inv0 st) (t i : Int) (ix : Bool) (r : Nat)
    (m : Int) (nm : Bool) : Inv0 (lruPutBody st t i ix r m nm) := by
  unfold lruPutBody
  split
  · exact h
  · rename_i hm
    have hm1 : 1 ≤ m := by omega
    split
    · rename_i e he
      have hkey : entryKey e = (t, i, ix) := matchKey_iff.mp (List.find?_some he)
      split
      · constructor
        · simp only [innerCost_cons]
          rw [innerCost_removeFirst he, h.cost_eq]
          ring
        · simp only [List.map_cons, List.nodup_cons]
          refine ⟨?_, h.nodup.sublist ((removeFirst_sublist _ _).map entryKey)⟩
          intro hmem
          obtain ⟨x, hx, hkx⟩ := List.mem_map.mp hmem
          exact not_mem_keys_removeFirst h.nodup hx (hkx.trans hkey)
        · intro x hx
          rcases List.mem_cons.mp hx with rfl | hx
          · exact hm1
          · exact h.memPos x (mem_of_mem_removeFirst hx)
        · exact h.capPos
      · constructor
        · rw [innerCost_updFirst he, h.cost_eq]
          show _ = innerCost st.order - e.innerMemUsage + m
          ring
        · show (List.map entryKey (updFirst (matchKey t i ix)
              (fun e0 => { e0 with itemRef := r, innerMemUsage := m }) st.order)).Nodup
          have hupd : List.map entryKey (updFirst (matchKey t i ix)
              (fun e0 => { e0 with itemRef := r, innerMemUsage := m }) st.order)
              = List.map entryKey st.order := by
            apply updFirst_map_eq
            intro x hx
            rfl
          rw [hupd]
          exact h.nodup
        · intro x hx
          rcases mem_updFirst hx with hx | ⟨y, hy, hpy, rfl⟩
          · exact h.memPos x hx
          · exact hm1
        · exact h.capPos
    · rename_i he
      constructor
      · simp only [innerCost_cons]
        rw [h.cost_eq]
        ring
      · simp only [List.map_cons, List.nodup_cons]
        refine ⟨?_, h.nodup⟩
        intro hmem
        obtain ⟨x, hx, hkx⟩ := List.mem_map.mp hmem
        exact (List.find?_eq_none.mp he x hx) (matchKey_iff.mpr hkx)
      · intro x hx
        rcases List.mem_cons.mp hx with rfl | hx
        · exact hm1
        · exact h.memPos x hx
      · exact h.capPos

theorem lruPut_inv0 {st : State} (h : Inv0 st) (t i : Int) (ix : Bool) (r : Nat)
    (m : Int) (ne nm : Bool) : Inv0 (lruPut st t i ix r m ne nm) := by
  unfold lruPut
  split
  · exact evictIfNeeded_inv0 (lruPutBody_inv0 h t i ix r m nm)
  · exact lruPutBody_inv0 h t i ix r m nm

theorem lruPut_shape (st : State) (t i : Int) (ix : Bool) (r : Nat)
    (m : Int) (ne nm : Bool) :
    (lruPut st t i ix r m ne nm).elements.map shapeF = st.elements.map shapeF := by
  unfold lruPut
  split
  · rw [evictIfNeeded_shape, lruPutBody_elements]
  · rw [lruPutBody_elements]

theorem lruPut_capacity (st : State) (t i : Int) (ix : Bool) (r : Nat)
    (m : Int) (ne nm : Bool) :
    (lruPut st t i ix r m ne nm).capacity = st.capacity := by
  unfold lruPut
  split
  · rw [evictIfNeeded_capacity, lruPutBody_capacity]
  · rw [lruPutBody_capacity]

theorem lruPut_pred {st : State} (P : List (Int × OuterElem) → Entry → Prop)
    (hshape : ∀ {el el' : List (Int × OuterElem)} {e : Entry},
      el.map shapeF = el'.map shapeF → P el e → P el' e)
    (hkey : ∀ {el : List (Int × OuterElem)} {e e' : Entry},
      entryKey e' = entryKey e → P el e → P el e')
    {t i : Int} {ix : Bool} {r : Nat} {m : Int} {ne nm : Bool}
    (h : ∀ e ∈ st.order, P st.elements e)
    (hnew : P st.elements ⟨t, i, ix, r, m⟩) :
    ∀ e ∈ (lruPut st t i ix r m ne nm).order, P (lruPut st t i ix r m ne nm).elements e := by
  have hbody : ∀ e ∈ (lruPutBody st t i ix r m nm).order,
      P (lruPutBody st t i ix r m nm).elements e := by
    intro x hx
    rw [lruPutBody_elements]
    rcases lruPutBody_prov st t i ix r m nm x hx with hx | hx
    · exact h x hx
    · exact hkey (show entryKey x = entryKey (⟨t, i, ix, r, m⟩ : Entry) from hx) hnew
  unfold lruPut
  split
  · exact evictIfNeeded_pred P hshape hkey hbody
  · exact hbody

/-! Delete folds (the id-diff loops of updateColumns / updateIndices and
the loops of Del). -/

theorem delFold_inv0 {st : State} (h : Inv0 st) (t : Int) (ix : Bool) (D : List Int) :
    Inv0 (D.foldl (fun acc i => lruDel acc t i ix) st) :=
  @List.foldlRecOn _ _ (fun s => Inv0 s) D _ st h (fun _s hs i _ => lruDel_inv0 hs t i ix)

theorem delFold_elements (st : State) (t : Int) (ix : Bool) (D : List Int) :
    (D.foldl (fun acc i => lruDel acc t i ix) st).elements = st.elements :=
  @List.foldlRecOn _ _ (fun s => s.elements = st.elements) D _ st rfl
    (fun s hs i _ => (lruDel_elements s t i ix).trans hs)

theorem delFold_heap (st : State) (t : Int) (ix : Bool) (D : List Int) :
    (D.foldl (fun acc i => lruDel acc t i ix) st).heap = st.heap :=
  @List.foldlRecOn _ _ (fun s => s.heap = st.heap) D _ st rfl
    (fun s hs i _ => (lruDel_heap s t i ix).trans hs)

theorem delFold_capacity (st : State) (t : Int) (ix : Bool) (D : List Int) :
    (D.foldl (fun acc i => lruDel acc t i ix) st).capacity = st.capacity :=
  @List.foldlRecOn _ _ (fun s => s.capacity = st.capacity) D _ st rfl
    (fun s hs i _ => (lruDel_capacity s t i ix).trans hs)

theorem delFold_subset (st : State) (t : Int) (ix : Bool) (D : List Int) :
    ∀ x ∈ (D.foldl (fun acc i => lruDel acc t i ix) st).order, x ∈ st.order :=
  @List.foldlRecOn _ _ (fun s => ∀ x ∈ s.order, x ∈ st.order) D _ st (fun _ hx => hx)
    (fun s hs i _ x hx => hs x (lruDel_order_subset s t i ix x hx))

theorem delFold_clears (t : Int) (ix : Bool) :
    ∀ (D : List Int) (st : State), Inv0 st →
    ∀ x ∈ (D.foldl (fun acc i => lruDel acc t i ix) st).order,
      x ∈ st.order ∧ (x.tblID = t → x.isIndex = ix → x.id ∉ D) := by
  intro D
  induction D with
  | nil =>
      intro st _ x hx
      exact ⟨hx, fun _ _ h => absurd h (List.not_mem_nil _)⟩
  | cons d D' ih =>
      intro st h x hx
      simp only [List.foldl_cons] at hx
      obtain ⟨hx1, hx2⟩ := ih (lruDel st t d ix) (lruDel_inv0 h t d ix) x hx
      refine ⟨lruDel_order_subset st t d ix x hx1, ?_⟩
      intro ht hix
      simp only [List.mem_cons, not_or]
      refine ⟨?_, hx2 ht hix⟩
      intro hid
      exact lruDel_clears h t d ix x hx1 (by simp [entryKey, ht, hix, hid])

/-! Put folds (the per-column / per-index put loops). -/

theorem putFold_inv0 (L : List (Int × Nat)) (t : Int) (ix : Bool) (mf : Int → Int)
    (nm : Bool) {st : State} (h : Inv0 st) :
    Inv0 (L.foldl (fun acc p => lruPut acc t p.1 ix p.2 (mf p.1) true nm) st) :=
  @List.foldlRecOn _ _ (fun s => Inv0 s) L _ st h
    (fun _s hs p _ => lruPut_inv0 hs t p.1 ix p.2 (mf p.1) true nm)

theorem putFold_shape (L : List (Int × Nat)) (t : Int) (ix : Bool) (mf : Int → Int)
    (nm : Bool) (st : State) :
    (L.foldl (fun acc p => lruPut acc t p.1 ix p.2 (mf p.1) true nm) st).elements.map shapeF
      = st.elements.map shapeF :=
  @List.foldlRecOn _ _ (fun s => s.elements.map shapeF = st.elements.map shapeF) L _ st rfl
    (fun s hs p _ => (lruPut_shape s t p.1 ix p.2 (mf p.1) true nm).trans hs)

theorem putFold_capacity (L : List (Int × Nat)) (t : Int) (ix : Bool) (mf : Int → Int)
    (nm : Bool) (st : State) :
    (L.foldl (fun acc p => lruPut acc t p.1 ix p.2 (mf p.1) true nm) st).capacity
      = st.capacity :=
  @List.foldlRecOn _ _ (fun s => s.capacity = st.capacity) L _ st rfl
    (fun s hs p _ => (lruPut_capacity s t p.1 ix p.2 (mf p.1) true nm).trans hs)

theorem putFold_pred (P : List (Int × OuterElem) → Entry → Prop)
    (hshape : ∀ {el el' : List (Int × OuterElem)} {e : Entry},
      el.map shapeF = el'.map shapeF → P el e → P el' e)
    (hkey : ∀ {el : List (Int × OuterElem)} {e e' : Entry},
      entryKey e' = entryKey e → P el e → P el e')
    (L : List (Int × Nat)) (t : Int) (ix : Bool) (mf : Int → Int) (nm : Bool)
    {st : State} (h : ∀ e ∈ st.order, P st.elements e)
    (hnew : ∀ p ∈ L, P st.elements ⟨t, p.1, ix, p.2, mf p.1⟩) :
    ∀ e ∈ (L.foldl (fun acc p => lruPut acc t p.1 ix p.2 (mf p.1) true nm) st).order,
      P (L.foldl (fun acc p => lruPut acc t p.1 ix p.2 (mf p.1) true nm) st).elements e := by
  have main : (L.foldl (fun acc p => lruPut acc t p.1 ix p.2 (mf p.1) true nm) st).elements.map shapeF
        = st.elements.map shapeF
      ∧ ∀ e ∈ (L.foldl (fun acc p => lruPut acc t p.1 ix p.2 (mf p.1) true nm) st).order,
        P (L.foldl (fun acc p => lruPut acc t p.1 ix p.2 (mf p.1) true nm) st).elements e := by
    refine @List.foldlRecOn _ _
      (fun s => s.elements.map shapeF = st.elements.map shapeF
        ∧ ∀ e ∈ s.order, P s.elements e) L _ st ⟨rfl, h⟩ ?_
    intro s hs p hp
    obtain ⟨hsh, hpr⟩ := hs
    refine ⟨(lruPut_shape s t p.1 ix p.2 (mf p.1) true nm).trans hsh, ?_⟩
    exact lruPut_pred P hshape hkey hpr (hshape hsh.symm (hnew p hp))
  exact main.2

/-! The mid-update invariant predicate on entries: for the table being
updated, the entry's id must come from the given key list (the column side
and the index side tracked separately); entries of other tables must be
covered by the outer map. -/

def EntryOK (t : Int) (ck ik : List Int) (el : List (Int × OuterElem)) (e : Entry) : Prop :=
  (e.tblID = t → e.isIndex = false → e.id ∈ ck) ∧
  (e.tblID = t → e.isIndex = true → e.id ∈ ik) ∧
  (e.tblID ≠ t → CoverT el e)

theorem EntryOK_shape {t : Int} {ck ik : List Int} {el el' : List (Int × OuterElem)}
    {e : Entry} (h : el.map shapeF = el'.map shapeF) :
    EntryOK t ck ik el e → EntryOK t ck ik el' e :=
  fun ⟨h1, h2, h3⟩ => ⟨h1, h2, fun hne => CoverT_of_shape h (h3 hne)⟩

theorem EntryOK_key {t : Int} {ck ik : List Int} {el : List (Int × OuterElem)}
    {e e' : Entry} (h : entryKey e' = entryKey e) :
    EntryOK t ck ik el e → EntryOK t ck ik el e' := by
  obtain ⟨h1, h2, h3⟩ : e'.tblID = e.tblID ∧ e'.id = e.id ∧ e'.isIndex = e.isIndex := by
    simpa [entryKey, Prod.ext_iff] using h
  intro ⟨g1, g2, g3⟩
  exact ⟨fun ha hb => h2 ▸ g1 (h1 ▸ ha) (h3 ▸ hb),
         fun ha hb => h2 ▸ g2 (h1 ▸ ha) (h3 ▸ hb),
         fun hne => CoverT_of_key h (g3 (h1 ▸ hne))⟩

theorem mem_innerIds {l : List Entry} {x : Entry} (hx : x ∈ l) (t : Int) (ix : Bool)
    (ht : x.tblID = t) (hix : x.isIndex = ix) : x.id ∈ innerIds l t ix := by
  simp only [innerIds, List.mem_map, List.mem_filter]
  exact ⟨x, ⟨hx, by simp [ht, hix]⟩, rfl⟩

/-! Facts about the diff-delete phase. -/

theorem delDiff_inv0 {st : State} (h : Inv0 st) (t : Int) (ix : Bool)
    (newIds : List (Int × Nat)) : Inv0 (delDiff st t ix newIds) := by
  unfold delDiff
  split
  · exact delFold_inv0 h t ix _
  · exact h

theorem delDiff_elements (st : State) (t : Int) (ix : Bool) (newIds : List (Int × Nat)) :
    (delDiff st t ix newIds).elements = st.elements := by
  unfold delDiff
  split
  · exact delFold_elements st t ix _
  · rfl

theorem delDiff_heap (st : State) (t : Int) (ix : Bool) (newIds : List (Int × Nat)) :
    (delDiff st t ix newIds).heap = st.heap := by
  unfold delDiff
  split
  · exact delFold_heap st t ix _
  · rfl

theorem delDiff_capacity (st : State) (t : Int) (ix : Bool) (newIds : List (Int × Nat)) :
    (delDiff st t ix newIds).capacity = st.capacity := by
  unfold delDiff
  split
  · exact delFold_capacity st t ix _
  · rfl

theorem delDiff_subset (st : State) (t : Int) (ix : Bool) (newIds : List (Int × Nat)) :
    ∀ x ∈ (delDiff st t ix newIds).order, x ∈ st.order := by
  unfold delDiff
  split
  · exact delFold_subset st t ix _
  · exact fun x hx => hx

/-- When the outer entry exists, every surviving entry on the diffed side
has its id among the new table's ids. -/
theorem delDiff_covers {st : State} (h : Inv0 st) {t : Int} {ix : Bool}
    (newIds : List (Int × Nat)) {elem0 : OuterElem}
    (hel : lookupElem st.elements t = some elem0) :
    ∀ x ∈ (delDiff st t ix newIds).order,
      x.tblID = t → x.isIndex = ix → x.id ∈ newIds.map Prod.fst := by
  unfold delDiff
  rw [hel]
  intro x hx ht hix
  obtain ⟨hx1, hx2⟩ := delFold_clears t ix _ st h x hx
  have hid : x.id ∈ innerIds st.order t ix := mem_innerIds hx1 t ix ht hix
  have hnd : ¬ (newIds.find? (fun p => p.1 == x.id)).isNone = true := by
    intro hnone
    exact hx2 ht hix (List.mem_filter.mpr ⟨hid, by simpa using hnone⟩)
  rw [Option.isNone_iff_eq_none] at hnd
  obtain ⟨p, hp⟩ := Option.ne_none_iff_exists'.mp hnd
  have hpm : p ∈ newIds := List.mem_of_find?_eq_some hp
  have hpk := List.find?_some hp
  exact List.mem_map.mpr ⟨p, hpm, beq_iff_eq.mp (by simpa using hpk)⟩

/-! EntryOK through the two update phases. -/

theorem updateColumns_inv0 {st : State} (h : Inv0 st) (t : Int) (tbl : Table)
    (mem : TableMemoryUsage) (nm : Bool) : Inv0 (updateColumns st t tbl mem nm) :=
  putFold_inv0 tbl.columns t false (fun i => memLookup mem.columnsMemUsage i) nm
    (delDiff_inv0 h t false tbl.columns)

theorem updateColumns_shape (st : State) (t : Int) (tbl : Table)
    (mem : TableMemoryUsage) (nm : Bool) :
    (updateColumns st t tbl mem nm).elements.map shapeF = st.elements.map shapeF := by
  have h1 := putFold_shape tbl.columns t false (fun i => memLookup mem.columnsMemUsage i) nm
    (delDiff st t false tbl.columns)
  have h2 := delDiff_elements st t false tbl.columns
  exact h1.trans (by rw [h2])

theorem updateColumns_capacity (st : State) (t : Int) (tbl : Table)
    (mem : TableMemoryUsage) (nm : Bool) :
    (updateColumns st t tbl mem nm).capacity = st.capacity := by
  have h1 := putFold_capacity tbl.columns t false (fun i => memLookup mem.columnsMemUsage i) nm
    (delDiff st t false tbl.columns)
  exact h1.trans (delDiff_capacity st t false tbl.columns)

theorem updateIndices_inv0 {st : State} (h : Inv0 st) (t : Int) (tbl : Table)
    (mem : TableMemoryUsage) (nm : Bool) : Inv0 (updateIndices st t tbl mem nm) :=
  putFold_inv0 tbl.indices t true (fun i => memLookup mem.indicesMemUsage i) nm
    (delDiff_inv0 h t true tbl.indices)

theorem updateIndices_shape (st : State) (t : Int) (tbl : Table)
    (mem : TableMemoryUsage) (nm : Bool) :
    (updateIndices st t tbl mem nm).elements.map shapeF = st.elements.map shapeF := by
  have h1 := putFold_shape tbl.indices t true (fun i => memLookup mem.indicesMemUsage i) nm
    (delDiff st t true tbl.indices)
  have h2 := delDiff_elements st t true tbl.indices
  exact h1.trans (by rw [h2])

theorem updateIndices_capacity (st : State) (t : Int) (tbl : Table)
    (mem : TableMemoryUsage) (nm : Bool) :
    (updateIndices st t tbl mem nm).capacity = st.capacity := by
  have h1 := putFold_capacity tbl.indices t true (fun i => memLookup mem.indicesMemUsage i) nm
    (delDiff st t true tbl.indices)
  exact h1.trans (delDiff_capacity st t true tbl.indices)

/-- After `updateColumns` with an existing outer entry, the column-side
entries of the updated table come from the new table's columns, index-side
entries keep their provenance, and other tables stay covered. -/
theorem updateColumns_entryOK {st : State} (h0 : Inv0 st) {t : Int} (tbl : Table)
    (mem : TableMemoryUsage) (nm : Bool) {ik : List Int} {elem0 : OuterElem}
    (hel : lookupElem st.elements t = some elem0)
    (hik : ∀ e ∈ st.order, e.tblID = t → e.isIndex = true → e.id ∈ ik)
    (hcov : ∀ e ∈ st.order, e.tblID ≠ t → CoverT st.elements e) :
    ∀ e ∈ (updateColumns st t tbl mem nm).order,
      EntryOK t (tbl.columns.map Prod.fst) ik (updateColumns st t tbl mem nm).elements e := by
  apply putFold_pred (EntryOK t (tbl.columns.map Prod.fst) ik)
    (fun hsh => EntryOK_shape hsh) (fun hk => EntryOK_key hk)
  · intro x hx
    have hsub := delDiff_subset st t false tbl.columns x hx
    refine ⟨fun ht hix => delDiff_covers h0 tbl.columns hel x hx ht hix, ?_, ?_⟩
    · exact fun ht hix => hik x hsub ht hix
    · intro hne
      rw [delDiff_elements]
      exact hcov x hsub hne
  · intro p hp
    exact ⟨fun _ _ => List.mem_map.mpr ⟨p, hp, rfl⟩,
           fun _ hb => by simp at hb,
           fun hne => absurd rfl hne⟩

/-- Symmetric statement for `updateIndices`. -/
theorem updateIndices_entryOK {st : State} (h0 : Inv0 st) {t : Int} (tbl : Table)
    (mem : TableMemoryUsage) (nm : Bool) {ck : List Int} {elem0 : OuterElem}
    (hel : lookupElem st.elements t = some elem0)
    (hck : ∀ e ∈ st.order, e.tblID = t → e.isIndex = false → e.id ∈ ck)
    (hcov : ∀ e ∈ st.order, e.tblID ≠ t → CoverT st.elements e) :
    ∀ e ∈ (updateIndices st t tbl mem nm).order,
      EntryOK t ck (tbl.indices.map Prod.fst) (updateIndices st t tbl mem nm).elements e := by
  apply putFold_pred (EntryOK t ck (tbl.indices.map Prod.fst))
    (fun hsh => EntryOK_shape hsh) (fun hk => EntryOK_key hk)
  · intro x hx
    have hsub := delDiff_subset st t true tbl.indices x hx
    refine ⟨fun ht hix => hck x hsub ht hix,
            fun ht hix => delDiff_covers h0 tbl.indices hel x hx ht hix, ?_⟩
    intro hne
    rw [delDiff_elements]
    exact hcov x hsub hne
  · intro p hp
    exact ⟨fun _ hb => by simp at hb,
           fun _ _ => List.mem_map.mpr ⟨p, hp, rfl⟩,
           fun hne => absurd rfl hne⟩

/-- When the table has no outer entry (hence, under the cover invariant, no
inner entries), both update phases just insert the new table's items. -/
theorem updateColumns_entryOK_absent {st : State} {t : Int} (tbl : Table)
    (mem : TableMemoryUsage) (nm : Bool) {ik : List Int}
    (habs : ∀ e ∈ st.order, e.tblID ≠ t)
    (hcov : ∀ e ∈ st.order, e.tblID ≠ t → CoverT st.elements e) :
    ∀ e ∈ (updateColumns st t tbl mem nm).order,
      EntryOK t (tbl.columns.map Prod.fst) ik (updateColumns st t tbl mem nm).elements e := by
  apply putFold_pred (EntryOK t (tbl.columns.map Prod.fst) ik)
    (fun hsh => EntryOK_shape hsh) (fun hk => EntryOK_key hk)
  · intro x hx
    have hsub := delDiff_subset st t false tbl.columns x hx
    refine ⟨fun ht _ => absurd ht (habs x hsub), fun ht _ => absurd ht (habs x hsub), ?_⟩
    intro hne
    rw [delDiff_elements]
    exact hcov x hsub hne
  · intro p hp
    exact ⟨fun _ _ => List.mem_map.mpr ⟨p, hp, rfl⟩,
           fun _ hb => by simp at hb,
           fun hne => absurd rfl hne⟩

theorem updateIndices_entryOK_absent {st : State} {t : Int} (tbl : Table)
    (mem : TableMemoryUsage) (nm : Bool) {ck : List Int}
    (hmix : ∀ e ∈ st.order, e.tblID = t → e.isIndex = false → e.id ∈ ck)
    (habs : ∀ e ∈ st.order, e.tblID = t → e.isIndex = true → False)
    (hcov : ∀ e ∈ st.order, e.tblID ≠ t → CoverT st.elements e) :
    ∀ e ∈ (updateIndices st t tbl mem nm).order,
      EntryOK t ck (tbl.indices.map Prod.fst) (updateIndices st t tbl mem nm).elements e := by
  apply putFold_pred (EntryOK t ck (tbl.indices.map Prod.fst))
    (fun hsh => EntryOK_shape hsh) (fun hk => EntryOK_key hk)
  · intro x hx
    have hsub := delDiff_subset st t true tbl.indices x hx
    refine ⟨fun ht hix => hmix x hsub ht hix,
            fun ht hix => absurd (habs x hsub ht hix) not_false, ?_⟩
    intro hne
    rw [delDiff_elements]
    exact hcov x hsub hne
  · intro p hp
    exact ⟨fun _ hb => by simp at hb,
           fun _ _ => List.mem_map.mpr ⟨p, hp, rfl⟩,
           fun hne => absurd rfl hne⟩

/-! Outer-map lookups through the final element update. -/

theorem CoverT_lookup_eq {el el' : List (Int × OuterElem)} {e : Entry}
    (h : lookupElem el' e.tblID = lookupElem el e.tblID) :
    CoverT el e → CoverT el' e :=
  fun ⟨elem, hl, hm⟩ => ⟨elem, h.trans hl, hm⟩

theorem lookupElem_updFirst_self {el : List (Int × OuterElem)} {t : Int}
    {p0 : Int × OuterElem} (h : el.find? (fun p => p.1 == t) = some p0)
    (f : Int × OuterElem → Int × OuterElem) (hf : ∀ x, (f x).1 = x.1) :
    lookupElem (updFirst (fun p => p.1 == t) f el) t = some (f p0).2 := by
  unfold lookupElem
  have hp1 := List.find?_some h
  have hp : ((f p0).1 == t) = true := by
    rw [hf p0]
    simpa using hp1
  rw [find?_updFirst_self h hp]
  rfl

theorem lookupElem_updFirst_other {el : List (Int × OuterElem)} {t k : Int}
    (hne : k ≠ t) (f : Int × OuterElem → Int × OuterElem) (hf : ∀ x, (f x).1 = x.1) :
    lookupElem (updFirst (fun p => p.1 == t) f el) k = lookupElem el k := by
  unfold lookupElem
  rw [find?_updFirst_disjoint el (fun x => by rw [hf x]) ?_]
  intro x hx
  have hxt : x.1 = t := beq_iff_eq.mp hx
  simp [hxt, Ne.symm hne]

/-! The full invariant and its preservation by the internal put. -/

/-- Every inner entry belongs to a table of the outer map and appears among
that table's ids. -/
def CoverAll (s : State) : Prop := ∀ e ∈ s.order, CoverT s.elements e

/-- The full reachable-state invariant. -/
def Inv (s : State) : Prop := Inv0 s ∧ CoverAll s

theorem putInner_inv {st : State} (h : Inv st) (t : Int) (tbl : Table)
    (mem : TableMemoryUsage) (nm : Bool) : Inv (putInner st t tbl mem nm) := by
  obtain ⟨h0, hcov⟩ := h
  unfold putInner
  split
  case _ elem0 hel =>
      have hA := updateColumns_entryOK h0 tbl mem nm hel
        (fun e he ht hix => mem_innerIds he t true ht hix)
        (fun e he hne => hcov e he)
      have h1 : Inv0 (updateColumns st t tbl mem nm) := updateColumns_inv0 h0 t tbl mem nm
      have hsh1 := updateColumns_shape st t tbl mem nm
      have hex1 : (lookupElem (updateColumns st t tbl mem nm).elements t).isSome = true := by
        rw [lookup_isSome_of_shape hsh1 t, hel]
        rfl
      obtain ⟨elem1, hel1⟩ := Option.isSome_iff_exists.mp hex1
      have hB := updateIndices_entryOK h1 tbl mem nm hel1
        (fun e he ht hix => (hA e he).1 ht hix)
        (fun e he hne => (hA e he).2.2 hne)
      have h2 : Inv0 (updateIndices (updateColumns st t tbl mem nm) t tbl mem nm) :=
        updateIndices_inv0 h1 t tbl mem nm
      have hsh2 := updateIndices_shape (updateColumns st t tbl mem nm) t tbl mem nm
      have hex2 : ((updateIndices (updateColumns st t tbl mem nm) t tbl mem nm).elements.find?
          (fun p => p.1 == t)).isSome = true := by
        have hiso := lookup_isSome_of_shape (hsh2.trans hsh1) t
        rw [hel] at hiso
        unfold lookupElem at hiso
        rw [Option.isSome_map'] at hiso
        exact hiso
      obtain ⟨p0, hp0⟩ := Option.isSome_iff_exists.mp hex2
      refine ⟨⟨h2.cost_eq, h2.nodup, h2.memPos, h2.capPos⟩, ?_⟩
      intro x hx
      have hOK := hB x hx
      by_cases hxt : x.tblID = t
      · have hl := lookupElem_updFirst_self hp0
          (fun p => (p.1, (⟨tbl, Table.memoryUsage
              (updateIndices (updateColumns st t tbl mem nm) t tbl mem nm).heap tbl⟩ : OuterElem)))
          (fun x => rfl)
        refine ⟨(⟨tbl, Table.memoryUsage
            (updateIndices (updateColumns st t tbl mem nm) t tbl mem nm).heap tbl⟩ : OuterElem),
          by rw [hxt]; exact hl, ?_⟩
        cases hix : x.isIndex
        · simpa [hix] using hOK.1 hxt hix
        · simpa [hix] using hOK.2.1 hxt hix
      · have hlk := @lookupElem_updFirst_other
            (updateIndices (updateColumns st t tbl mem nm) t tbl mem nm).elements
            t x.tblID hxt
          (fun p => (p.1, (⟨tbl, Table.memoryUsage
              (updateIndices (updateColumns st t tbl mem nm) t tbl mem nm).heap tbl⟩ : OuterElem)))
          (fun x => rfl)
        exact CoverT_lookup_eq hlk (hOK.2.2 hxt)
  case _ hel =>
      have habs : ∀ e ∈ st.order, e.tblID ≠ t := by
        intro e he ht
        obtain ⟨elem, hl, _⟩ := hcov e he
        rw [ht, hel] at hl
        cases hl
      have hA := @updateColumns_entryOK_absent st t tbl mem nm ([] : List Int)
        habs (fun e he hne => hcov e he)
      have h1 : Inv0 (updateColumns st t tbl mem nm) := updateColumns_inv0 h0 t tbl mem nm
      have hsh1 := updateColumns_shape st t tbl mem nm
      have hB := updateIndices_entryOK_absent tbl mem nm
        (fun e he ht hix => (hA e he).1 ht hix)
        (fun e he ht hix => by
          have := (hA e he).2.1 ht hix
          simp at this)
        (fun e he hne => (hA e he).2.2 hne)
      have h2 : Inv0 (updateIndices (updateColumns st t tbl mem nm) t tbl mem nm) :=
        updateIndices_inv0 h1 t tbl mem nm
      refine ⟨⟨h2.cost_eq, h2.nodup, h2.memPos, h2.capPos⟩, ?_⟩
      intro x hx
      have hOK := hB x hx
      by_cases hxt : x.tblID = t
      · refine ⟨(⟨tbl, Table.memoryUsage
            (updateIndices (updateColumns st t tbl mem nm) t tbl mem nm).heap tbl⟩ : OuterElem),
          ?_, ?_⟩
        · rw [hxt]
          unfold lookupElem
          rw [List.find?_cons_of_pos _ (by simp)]
          rfl
        · cases hix : x.isIndex
          · simpa [hix] using hOK.1 hxt hix
          · simpa [hix] using hOK.2.1 hxt hix
      · have hlk : lookupElem ((t, (⟨tbl, Table.memoryUsage
            (updateIndices (updateColumns st t tbl mem nm) t tbl mem nm).heap tbl⟩ : OuterElem))
              :: (updateIndices (updateColumns st t tbl mem nm) t tbl mem nm).elements) x.tblID
            = lookupElem (updateIndices (updateColumns st t tbl mem nm) t tbl mem nm).elements
                x.tblID := by
          unfold lookupElem
          rw [List.find?_cons_of_neg _ (by simp [Ne.symm hxt])]
        exact CoverT_lookup_eq hlk (hOK.2.2 hxt)

/-! Invariant preservation by the remaining public operations. -/

theorem Put_inv {st : State} (h : Inv st) (t : Int) (tbl : Table) (nm : Bool) :
    Inv (Put st t tbl nm) :=
  putInner_inv h t tbl (tbl.memoryUsage st.heap) nm

theorem getFold_facts (L : List Int) (t : Int) (ix : Bool) {st : State}
    (h : Inv0 st) :
    Inv0 (L.foldl (fun acc i => lruGet acc t i ix) st)
      ∧ (L.foldl (fun acc i => lruGet acc t i ix) st).elements = st.elements
      ∧ ∀ x ∈ (L.foldl (fun acc i => lruGet acc t i ix) st).order, x ∈ st.order :=
  @List.foldlRecOn _ _
    (fun s => Inv0 s ∧ s.elements = st.elements ∧ ∀ x ∈ s.order, x ∈ st.order)
    L _ st ⟨h, rfl, fun _ hx => hx⟩
    (fun s hs i _ =>
      ⟨lruGet_inv0 hs.1 t i ix, (lruGet_elements s t i ix).trans hs.2.1,
       fun x hx => hs.2.2 x (lruGet_order_subset s t i ix x hx)⟩)

theorem getByQuery_inv {st : State} (h : Inv st) (t : Int) :
    Inv (getByQuery st t).2 := by
  obtain ⟨h0, hcov⟩ := h
  unfold getByQuery
  split
  · exact ⟨h0, hcov⟩
  case _ elem hel =>
      obtain ⟨hA0, hAel, hAsub⟩ := getFold_facts (elem.tbl.indices.map Prod.fst) t true h0
      obtain ⟨hB0, hBel, hBsub⟩ := getFold_facts (elem.tbl.columns.map Prod.fst) t false hA0
      refine ⟨hB0, ?_⟩
      intro x hx
      show CoverT ((elem.tbl.columns.map Prod.fst).foldl (fun acc colID => lruGet acc t colID false)
        ((elem.tbl.indices.map Prod.fst).foldl (fun acc idxID => lruGet acc t idxID true) st)).elements x
      rw [hBel, hAel]
      exact hcov x (hAsub x (hBsub x hx))

theorem Get_inv {st : State} (h : Inv st) (t : Int) (mv : Bool) :
    Inv (Get st t mv).2 := by
  unfold Get
  split
  · exact getByQuery_inv h t
  · split <;> exact h

theorem Del_inv {st : State} (h : Inv st) (t : Int) : Inv (Del st t) := by
  obtain ⟨h0, hcov⟩ := h
  unfold Del
  split
  · exact ⟨h0, hcov⟩
  case _ elem hel =>
      have h1 : Inv0 ((elem.tbl.indices.map Prod.fst).foldl
          (fun acc idxID => lruDel acc t idxID true) st) := delFold_inv0 h0 t true _
      have h2 : Inv0 ((elem.tbl.columns.map Prod.fst).foldl (fun acc colID => lruDel acc t colID false)
          ((elem.tbl.indices.map Prod.fst).foldl (fun acc idxID => lruDel acc t idxID true) st)) :=
        delFold_inv0 h1 t false _
      refine ⟨⟨h2.cost_eq, h2.nodup, h2.memPos, h2.capPos⟩, ?_⟩
      intro x hx
      obtain ⟨hx1, hxc⟩ := delFold_clears t false _ _ h1 x hx
      obtain ⟨hx0, hxi⟩ := delFold_clears t true _ _ h0 x hx1
      have hel12 : ((elem.tbl.columns.map Prod.fst).foldl (fun acc colID => lruDel acc t colID false)
          ((elem.tbl.indices.map Prod.fst).foldl (fun acc idxID => lruDel acc t idxID true) st)).elements
          = st.elements := by
        rw [delFold_elements, delFold_elements]
      by_cases hxt : x.tblID = t
      · exfalso
        obtain ⟨elemC, hlC, hmC⟩ := hcov x hx0
        rw [hxt, hel] at hlC
        cases hlC
        cases hix : x.isIndex
        · rw [hix] at hmC
          simp only [Bool.false_eq_true, if_neg] at hmC
          exact hxc hxt hix (by simpa using hmC)
        · rw [hix] at hmC
          simp only [if_pos] at hmC
          exact hxi hxt hix (by simpa using hmC)
      · obtain ⟨elemC, hlC, hmC⟩ := hcov x hx0
        refine ⟨elemC, ?_, hmC⟩
        show lookupElem (removeFirst (fun p => p.1 == t) _) x.tblID = some elemC
        unfold lookupElem
        rw [find?_removeFirst_disjoint _ ?_]
        · rw [hel12]
          exact hlC
        · intro y hy
          have hyt : y.1 = t := beq_iff_eq.mp hy
          simp [hyt, Ne.symm hxt]

theorem SetCapacity_inv {st : State} (h : Inv st) (c : Int) :
    Inv (SetCapacity st c) := by
  obtain ⟨h0, hcov⟩ := h
  unfold SetCapacity
  have h1 : Inv0 { st with capacity := if c < 1 then maxInt64 else c } := by
    refine ⟨h0.cost_eq, h0.nodup, h0.memPos, ?_⟩
    show 1 ≤ (if c < 1 then maxInt64 else c)
    split
    · decide
    · omega
  refine ⟨evictIfNeeded_inv0 h1, ?_⟩
  exact evictIfNeeded_pred CoverT (fun hsh => CoverT_of_shape hsh)
    (fun hk => CoverT_of_key hk) hcov

theorem freshTableCost_inv {st : State} (h : Inv st) (t : Int) :
    Inv (freshTableCost st t) := by
  obtain ⟨h0, hcov⟩ := h
  unfold freshTableCost
  split
  · exact ⟨h0, hcov⟩
  case _ elem hel =>
      have hsh : st.elements.map shapeF
          = (updFirst (fun p => p.1 == t)
              (fun p => (p.1, { p.2 with tblMemUsage := elem.tbl.memoryUsage st.heap }))
              st.elements).map shapeF := by
        symm
        apply updFirst_map_eq shapeF
        intro x hx
        rfl
      apply putInner_inv
      refine ⟨⟨h0.cost_eq, h0.nodup, h0.memPos, h0.capPos⟩, ?_⟩
      intro x hx
      exact CoverT_of_shape hsh (hcov x hx)

theorem totalStep_snd (acc : Int × State) (k : Int) :
    (totalStep acc k).2 = freshTableCost acc.2 k := by
  unfold totalStep
  split <;> rfl

theorem TotalCost_inv {st : State} (h : Inv st) : Inv (TotalCost st).2 := by
  unfold TotalCost
  refine @List.foldlRecOn _ _ (fun acc : Int × State => Inv acc.2)
    (st.elements.map Prod.fst) _ (0, st) h ?_
  intro acc hacc k _
  rw [totalStep_snd]
  exact freshTableCost_inv hacc k

/-! Copy rebuilds the same state. -/

theorem copyFold_eq : ∀ (l : List Entry) (acc : State),
    (∀ x ∈ l, 1 ≤ x.innerMemUsage) →
    ((l ++ acc.order).map entryKey).Nodup →
    l.foldl (fun a e => lruPut a e.tblID e.id e.isIndex e.itemRef e.innerMemUsage false false) acc
      = { acc with order := l.reverse ++ acc.order,
                   trackingCost := acc.trackingCost + innerCost l } := by
  intro l
  induction l with
  | nil =>
      intro acc _ _
      simp [innerCost_nil]
  | cons e rest ih =>
      intro acc hm hn
      simp only [List.foldl_cons]
      have hkey : entryKey e ∉ (rest ++ acc.order).map entryKey := by
        have hn' := hn
        simp only [List.cons_append, List.map_cons, List.nodup_cons] at hn'
        exact hn'.1
      have hfind : acc.order.find? (matchKey e.tblID e.id e.isIndex) = none := by
        rw [List.find?_eq_none]
        intro x hx hmk
        have hkx : entryKey x = (e.tblID, e.id, e.isIndex) := matchKey_iff.mp hmk
        exact hkey (by
          rw [show (e.tblID, e.id, e.isIndex) = entryKey e from rfl] at hkx
          rw [← hkx]
          exact List.mem_map_of_mem entryKey (List.mem_append.mpr (Or.inr hx)))
      have hput : lruPut acc e.tblID e.id e.isIndex e.itemRef e.innerMemUsage false false
          = { acc with order := e :: acc.order,
                       trackingCost := acc.trackingCost + (e.innerMemUsage - 0) } := by
        show lruPutBody acc e.tblID e.id e.isIndex e.itemRef e.innerMemUsage false = _
        unfold lruPutBody
        rw [if_neg (by have := hm e (List.mem_cons_self e rest); omega)]
        rw [show findEntry acc.order e.tblID e.id e.isIndex = none from hfind]
      rw [hput]
      rw [ih _ (fun x hx => hm x (List.mem_cons_of_mem e hx)) ?_]
      · show State.mk _ _ _ _ _ = State.mk _ _ _ _ _
        congr 1
        · simp [List.append_assoc]
        · rw [innerCost_cons]
          ring
      · have hperm : List.Perm ((rest ++ e :: acc.order).map entryKey)
            (((e :: rest) ++ acc.order).map entryKey) := by
          simp only [List.cons_append, List.map_cons, List.map_append]
          exact List.perm_middle
        exact hperm.nodup_iff.mpr hn

theorem Copy_eq {st : State} (h : Inv0 st) : Copy st = st := by
  unfold Copy
  rw [copyFold_eq st.order.reverse _ ?_ ?_]
  · have hcap : (if st.capacity < 1 then maxInt64 else st.capacity) = st.capacity := by
      rw [if_neg]
      have := h.capPos
      omega
    simp only [List.reverse_reverse, List.append_nil, innerCost_reverse, hcap, zero_add,
      ← h.cost_eq]
  · intro x hx
    exact h.memPos x (List.mem_reverse.mp hx)
  · simp only [List.append_nil, List.map_reverse]
    exact List.nodup_reverse.mpr h.nodup

/-! The master reachability invariant. -/

theorem reachable_inv {h0 : List CacheItem} {s : State} (h : Reachable h0 s) : Inv s := by
  induction h with
  | init c =>
      refine ⟨⟨rfl, List.nodup_nil, ?_, ?_⟩, ?_⟩
      · intro e he
        cases he
      · show 1 ≤ (if c < 1 then maxInt64 else c)
        split
        · decide
        · omega
      · intro e he
        cases he
  | put t tbl mv _ ih => exact Put_inv ih t tbl mv
  | get t mv _ ih => exact Get_inv ih t mv
  | del t _ ih => exact Del_inv ih t
  | setCap c _ ih => exact SetCapacity_inv ih c
  | total _ ih => exact TotalCost_inv ih
  | copy _ ih => rw [Copy_eq ih.1]; exact ih

/-! The single-stage eviction regime: when every item is fully evicted by
one dropEvicted call (at most one chunk), an eviction pass always brings the
cost within the capacity. -/

/-- Every item in the heap is emptied by a single `dropEvicted` call. -/
def shortHeap (h : List CacheItem) : Prop := ∀ i ∈ h, i.chunks.length ≤ 1

theorem heapItem_short {h : List CacheItem} (hh : shortHeap h) (r : Nat) :
    (heapItem h r).chunks.length ≤ 1 := by
  unfold heapItem
  rw [List.getD_eq_getD_get?]
  cases hg : h.get? r with
  | none => simp [default]
  | some x =>
      simp only [Option.getD_some]
      exact hh x (List.get?_mem hg)

theorem short_drop_nil {i : CacheItem} (hi : i.chunks.length ≤ 1) :
    (CacheItem.dropEvicted i).chunks = [] := by
  unfold CacheItem.dropEvicted
  cases hc : i.chunks with
  | nil => rfl
  | cons a l =>
      rw [hc] at hi
      simp only [List.length_cons] at hi
      simp only [List.tail_cons]
      exact List.eq_nil_of_length_eq_zero (by omega)

theorem shortHeap_set {h : List CacheItem} (hh : shortHeap h) {i : CacheItem}
    (hi : i.chunks.length ≤ 1) (r : Nat) : shortHeap (h.set r i) := by
  intro x hx
  rcases List.mem_or_eq_of_mem_set hx with hx | rfl
  · exact hh x hx
  · exact hi

theorem evictLoop_short (cap : Int) (b : List Entry) :
    ∀ (surv : List Entry) (heap : List CacheItem) (el : List (Int × OuterElem)) (cost : Int),
    shortHeap heap →
    cost = innerCost surv + innerCost b →
    innerCost surv ≤ cap →
    (evictLoop cap b surv heap el cost).trackingCost ≤ cap
      ∧ shortHeap (evictLoop cap b surv heap el cost).heap := by
  induction b with
  | nil =>
      intro surv heap el cost hh hc hs
      simp only [evictLoop]
      exact ⟨by rw [hc, innerCost_nil]; omega, hh⟩
  | cons e rest ih =>
      intro surv heap el cost hh hc hs
      simp only [evictLoop]
      split
      · have hnil : (CacheItem.dropEvicted (heapItem heap e.itemRef)).chunks = [] :=
          short_drop_nil (heapItem_short hh e.itemRef)
        have hz : (CacheItem.dropEvicted (heapItem heap e.itemRef)).trackingMemUsage = 0 := by
          unfold CacheItem.trackingMemUsage
          rw [hnil]
          rfl
        rw [if_pos (by rw [hz]; rfl)]
        apply ih
        · exact shortHeap_set hh (by rw [hnil]; exact Nat.le_of_lt Nat.one_pos) e.itemRef
        · rw [hz, hc, innerCost_cons]
          ring
        · exact hs
      · rename_i hstop
        refine ⟨?_, hh⟩
        show cost ≤ cap
        omega

theorem evictIfNeeded_short {st : State} (h0 : Inv0 st) (hh : shortHeap st.heap) :
    (evictIfNeeded st).trackingCost ≤ (evictIfNeeded st).capacity
      ∧ shortHeap (evictIfNeeded st).heap := by
  have hres := evictLoop_short st.capacity st.order.reverse [] st.heap st.elements
    st.trackingCost hh (by rw [innerCost_nil, innerCost_reverse, h0.cost_eq]; ring)
    (by rw [innerCost_nil]; have := h0.capPos; omega)
  unfold evictIfNeeded
  rw [evictLoop_capacity]
  exact hres

/-- The invariant carried through the single-stage induction. -/
def ShortInv (s : State) : Prop :=
  Inv0 s ∧ shortHeap s.heap ∧ s.trackingCost ≤ s.capacity

theorem shortInv_lruGet {s : State} (h : ShortInv s) (t i : Int) (ix : Bool) :
    ShortInv (lruGet s t i ix) := by
  obtain ⟨h0, hh, hc⟩ := h
  exact ⟨lruGet_inv0 h0 t i ix,
    by rw [lruGet_heap]; exact hh,
    by rw [lruGet_cost, lruGet_capacity]; exact hc⟩

theorem lruDel_heap_cost {s : State} (h0 : Inv0 s) (t i : Int) (ix : Bool) :
    (lruDel s t i ix).heap = s.heap ∧ (lruDel s t i ix).trackingCost ≤ s.trackingCost := by
  unfold lruDel
  cases hf : findEntry s.order t i ix with
  | none => exact ⟨rfl, le_refl _⟩
  | some e =>
      have hm := h0.memPos e (List.mem_of_find?_eq_some hf)
      exact ⟨rfl, by show s.trackingCost + (0 - e.innerMemUsage) ≤ s.trackingCost; omega⟩

theorem shortInv_lruDel {s : State} (h : ShortInv s) (t i : Int) (ix : Bool) :
    ShortInv (lruDel s t i ix) := by
  obtain ⟨h0, hh, hc⟩ := h
  obtain ⟨hhp, hcc⟩ := lruDel_heap_cost h0 t i ix
  exact ⟨lruDel_inv0 h0 t i ix, by rw [hhp]; exact hh,
    by rw [lruDel_capacity]; omega⟩

theorem shortInv_lruPut_evict {s : State} (h0 : Inv0 s) (hh : shortHeap s.heap)
    (t i : Int) (ix : Bool) (r : Nat) (m : Int) (nm : Bool) :
    ShortInv (lruPut s t i ix r m true nm) := by
  have hb0 : Inv0 (lruPutBody s t i ix r m nm) := lruPutBody_inv0 h0 t i ix r m nm
  have hbh : shortHeap (lruPutBody s t i ix r m nm).heap := by
    rw [lruPutBody_heap]
    exact hh
  have hres := evictIfNeeded_short hb0 hbh
  show ShortInv (evictIfNeeded (lruPutBody s t i ix r m nm))
  exact ⟨evictIfNeeded_inv0 hb0, hres.2, hres.1⟩

theorem shortInv_delFold {s : State} (h : ShortInv s) (t : Int) (ix : Bool) (D : List Int) :
    ShortInv (D.foldl (fun acc i => lruDel acc t i ix) s) :=
  @List.foldlRecOn _ _ (fun x => ShortInv x) D _ s h
    (fun _s hs i _ => shortInv_lruDel hs t i ix)

theorem shortInv_putFold (L : List (Int × Nat)) (t : Int) (ix : Bool) (mf : Int → Int)
    (nm : Bool) {s : State} (h : ShortInv s) :
    ShortInv (L.foldl (fun acc p => lruPut acc t p.1 ix p.2 (mf p.1) true nm) s) :=
  @List.foldlRecOn _ _ (fun x => ShortInv x) L _ s h
    (fun _s hs p _ => shortInv_lruPut_evict hs.1 hs.2.1 t p.1 ix p.2 (mf p.1) nm)

theorem shortInv_delDiff {s : State} (h : ShortInv s) (t : Int) (ix : Bool)
    (newIds : List (Int × Nat)) : ShortInv (delDiff s t ix newIds) := by
  unfold delDiff
  split
  · exact shortInv_delFold h t ix _
  · exact h

theorem shortInv_putInner {s : State} (h : ShortInv s) (t : Int) (tbl : Table)
    (mem : TableMemoryUsage) (nm : Bool) : ShortInv (putInner s t tbl mem nm) := by
  have h1 : ShortInv (updateColumns s t tbl mem nm) :=
    shortInv_putFold tbl.columns t false (fun i => memLookup mem.columnsMemUsage i) nm
      (shortInv_delDiff h t false tbl.columns)
  have h2 : ShortInv (updateIndices (updateColumns s t tbl mem nm) t tbl mem nm) :=
    shortInv_putFold tbl.indices t true (fun i => memLookup mem.indicesMemUsage i) nm
      (shortInv_delDiff h1 t true tbl.indices)
  obtain ⟨h20, h2h, h2c⟩ := h2
  unfold putInner
  split
  · exact ⟨⟨h20.cost_eq, h20.nodup, h20.memPos, h20.capPos⟩, h2h, h2c⟩
  · exact ⟨⟨h20.cost_eq, h20.nodup, h20.memPos, h20.capPos⟩, h2h, h2c⟩

theorem shortInv_freshTableCost {s : State} (h : ShortInv s) (t : Int) :
    ShortInv (freshTableCost s t) := by
  obtain ⟨h0, hh, hc⟩ := h
  unfold freshTableCost
  split
  · exact ⟨h0, hh, hc⟩
  case _ elem hel =>
      exact @shortInv_putInner
        { s with elements :=
            (updFirst (fun p => p.1 == t)
              (fun p => (p.1, { p.2 with tblMemUsage := elem.tbl.memoryUsage s.heap }))
              s.elements) }
        ⟨⟨h0.cost_eq, h0.nodup, h0.memPos, h0.capPos⟩, hh, hc⟩
        t elem.tbl (elem.tbl.memoryUsage s.heap) false

theorem shortInv_getFold (L : List Int) (t : Int) (ix : Bool) {s : State}
    (h : ShortInv s) : ShortInv (L.foldl (fun acc i => lruGet acc t i ix) s) :=
  @List.foldlRecOn _ _ (fun x => ShortInv x) L _ s h
    (fun _s hs i _ => shortInv_lruGet hs t i ix)

theorem shortInv_Get {s : State} (h : ShortInv s) (t : Int) (mv : Bool) :
    ShortInv (Get s t mv).2 := by
  unfold Get
  split
  · unfold getByQuery
    split
    · exact h
    · exact shortInv_getFold _ t false (shortInv_getFold _ t true h)
  · split <;> exact h

theorem shortInv_Del {s : State} (h : ShortInv s) (t : Int) : ShortInv (Del s t) := by
  unfold Del
  split
  · exact h
  case _ elem hel =>
      have h2 := shortInv_delFold (shortInv_delFold h t true (elem.tbl.indices.map Prod.fst))
        t false (elem.tbl.columns.map Prod.fst)
      obtain ⟨h20, h2h, h2c⟩ := h2
      exact ⟨⟨h20.cost_eq, h20.nodup, h20.memPos, h20.capPos⟩, h2h, h2c⟩

theorem shortInv_SetCapacity {s : State} (h : ShortInv s) (c : Int) :
    ShortInv (SetCapacity s c) := by
  obtain ⟨h0, hh, _⟩ := h
  unfold SetCapacity
  have h1 : Inv0 { s with capacity := if c < 1 then maxInt64 else c } := by
    refine ⟨h0.cost_eq, h0.nodup, h0.memPos, ?_⟩
    show 1 ≤ (if c < 1 then maxInt64 else c)
    split
    · decide
    · omega
  have hres := evictIfNeeded_short h1 hh
  exact ⟨evictIfNeeded_inv0 h1, hres.2, hres.1⟩

theorem shortInv_TotalCost {s : State} (h : ShortInv s) : ShortInv (TotalCost s).2 := by
  unfold TotalCost
  refine @List.foldlRecOn _ _ (fun acc : Int × State => ShortInv acc.2)
    (s.elements.map Prod.fst) _ (0, s) h ?_
  intro acc hacc k _
  rw [totalStep_snd]
  exact shortInv_freshTableCost hacc k

theorem shortInv_Put {s : State} (h : ShortInv s) (t : Int) (tbl : Table) (nm : Bool) :
    ShortInv (Put s t tbl nm) :=
  shortInv_putInner h t tbl (tbl.memoryUsage s.heap) nm

/-- The single-stage Cost bound: over a heap of single-chunk items, every
reachable state keeps the tracking cost within the capacity. -/
theorem reachable_short {h0 : List CacheItem} {s : State} (hshort : shortHeap h0)
    (h : Reachable h0 s) : ShortInv s := by
  induction h with
  | init c =>
      refine ⟨⟨rfl, List.nodup_nil, ?_, ?_⟩, hshort, ?_⟩
      · intro e he
        cases he
      · show 1 ≤ (if c < 1 then maxInt64 else c)
        split
        · decide
        · omega
      · show (0 : Int) ≤ (if c < 1 then maxInt64 else c)
        split
        · decide
        · omega
  | put t tbl mv _ ih => exact shortInv_Put ih t tbl mv
  | get t mv _ ih => exact shortInv_Get ih t mv
  | del t _ ih => exact shortInv_Del ih t
  | setCap c _ ih => exact shortInv_SetCapacity ih c
  | total _ ih => exact shortInv_TotalCost ih
  | copy hs ih =>
      rw [Copy_eq (reachable_inv hs).1]
      exact ih

/-! Support lemmas for the round-trip and diff claims. -/

/-- An internal put always leaves the outer map holding the new table at the
put key, with a memory usage recomputed after the inner updates. -/
theorem putInner_lookup_self (st : State) (t : Int) (tbl : Table)
    (mem : TableMemoryUsage) (nm : Bool) :
    lookupElem (putInner st t tbl mem nm).elements t
      = some ⟨tbl, tbl.memoryUsage (updateIndices (updateColumns st t tbl mem nm) t tbl mem nm).heap⟩ := by
  unfold putInner
  split
  case _ elem0 hel =>
      have hsh := (updateIndices_shape (updateColumns st t tbl mem nm) t tbl mem nm).trans
        (updateColumns_shape st t tbl mem nm)
      have hiso := lookup_isSome_of_shape hsh t
      rw [hel] at hiso
      have hfs : ((updateIndices (updateColumns st t tbl mem nm) t tbl mem nm).elements.find?
          (fun p => p.1 == t)).isSome = true := by
        unfold lookupElem at hiso
        rw [Option.isSome_map'] at hiso
        exact hiso
      obtain ⟨p0, hp0⟩ := Option.isSome_iff_exists.mp hfs
      exact lookupElem_updFirst_self hp0 _ (fun x => rfl)
  case _ hel =>
      unfold lookupElem
      rw [List.find?_cons_of_pos _ (by simp)]
      rfl

/-- After a put for a table that already has an outer entry, every inner
entry of that table carries an id of the new table. -/
theorem Put_stale_absent {st : State} (hInv : Inv st) {t : Int} (tbl : Table) (mv : Bool)
    (hex : (lookupElem st.elements t).isSome = true) :
    ∀ e ∈ (Put st t tbl mv).order, e.tblID = t →
      e.id ∈ (if e.isIndex then tbl.indices else tbl.columns).map Prod.fst := by
  obtain ⟨h0, hcov⟩ := hInv
  unfold Put putInner
  split
  case _ elem0 hel =>
      have hA := updateColumns_entryOK h0 tbl (tbl.memoryUsage st.heap) mv hel
        (fun e he ht hix => mem_innerIds he t true ht hix)
        (fun e he _ => hcov e he)
      have h1 : Inv0 (updateColumns st t tbl (tbl.memoryUsage st.heap) mv) :=
        updateColumns_inv0 h0 t tbl (tbl.memoryUsage st.heap) mv
      have hsh1 := updateColumns_shape st t tbl (tbl.memoryUsage st.heap) mv
      have hex1 : (lookupElem (updateColumns st t tbl (tbl.memoryUsage st.heap) mv).elements
          t).isSome = true := by
        rw [lookup_isSome_of_shape hsh1 t, hel]
        rfl
      obtain ⟨elem1, hel1⟩ := Option.isSome_iff_exists.mp hex1
      have hB := updateIndices_entryOK h1 tbl (tbl.memoryUsage st.heap) mv hel1
        (fun e he ht hix => (hA e he).1 ht hix)
        (fun e he hne => (hA e he).2.2 hne)
      intro e he ht
      have hOK := hB e he
      cases hix : e.isIndex
      · simpa [hix] using hOK.1 ht hix
      · simpa [hix] using hOK.2.1 ht hix
  case _ hel =>
      rw [hel] at hex
      cases hex

/-- An eviction pass over a state already within its capacity is the
identity. -/
theorem evictIfNeeded_noop {st : State} (hle : st.trackingCost ≤ st.capacity) :
    evictIfNeeded st = st := by
  unfold evictIfNeeded
  cases ho : st.order.reverse with
  | nil =>
      have hnil : st.order = [] := by
        have := congrArg List.reverse ho
        simpa using this
      simp only [evictLoop]
      rw [show ([] : List Entry) = st.order from hnil.symm]
  | cons e rest =>
      simp only [evictLoop]
      rw [if_neg (by omega)]
      rw [List.nil_append, ← ho, List.reverse_reverse]

/-! Concrete scenario states used by the claims below. -/

/-- A two-stage item: the first `dropEvicted` call removes 2 bytes, the
second removes the remaining 9. -/
def exHeap : List CacheItem := [⟨[2, 9], 0⟩]

def exTable : Table := ⟨[(10, 0)], []⟩

/-- Put the 11-byte column under capacity 20. -/
def exState1 : State := Put (newStatsLruCache 20 exHeap) 1 exTable false

/-- Then shrink the capacity to 5: the eviction pass drops one stage,
parks the partially evicted item at the front, and ends with cost 9 > 5. -/
def exState2 : State := SetCapacity exState1 5

theorem exState2_reachable : Reachable exHeap exState2 :=
  Reachable.setCap 5 (Reachable.put 1 exTable false (Reachable.init 20))

/-- The single inner entry of `exState2`. -/
def eS2 : Entry := ⟨1, 10, false, 0, 9⟩

/-- Items for the update-diff scenario: columns A, B, C of 20 bytes each. -/
def diffHeap : List CacheItem := [⟨[20], 0⟩, ⟨[20], 0⟩, ⟨[20], 0⟩]

def tblAB : Table := ⟨[(1, 0), (2, 1)], []⟩

def tblAC : Table := ⟨[(1, 0), (3, 2)], []⟩

def diffState1 : State := Put (newStatsLruCache 1000 diffHeap) 1 tblAB false

def diffState2 : State := Put diffState1 1 tblAC false

/-- Two tables with one 60-byte column each under capacity 100. -/
def twoHeap : List CacheItem := [⟨[60], 0⟩, ⟨[60], 0⟩]

def twoState : State :=
  Put (Put (newStatsLruCache 100 twoHeap) 1 ⟨[(1, 0)], []⟩ false) 2 ⟨[(1, 1)], []⟩ false

theorem twoState_reachable : Reachable twoHeap twoState :=
  Reachable.put 2 ⟨[(1, 1)], []⟩ false
    (Reachable.put 1 ⟨[(1, 0)], []⟩ false (Reachable.init 100))

/-! The claims. -/

/-- C1: for every reachable cache state, the inner LRU's trackingCost
equals the sum of the stored itemMemUsage tracking usages over all entries
currently in the inner LRU; the equality is preserved by every operation.
(The modelled item satisfies the claim's hypothesis that a fully evicted
item reports tracking usage 0 by construction: with no chunks left the sum
of chunks is 0.) -/
theorem claim1_cost_sum_invariant (h0 : List CacheItem) (s : State)
    (hr : Reachable h0 s) : s.trackingCost = innerCost s.order :=
  (reachable_inv hr).1.cost_eq

theorem claim1_witness :
    (newStatsLruCache 100 []).trackingCost = innerCost (newStatsLruCache 100 []).order :=
  claim1_cost_sum_invariant [] (newStatsLruCache 100 []) (Reachable.init 100)

/-- C2 counterexample: a put with tracking usage 0 (< 1) is not a no-op.
In `exState2` (reachable via Put then SetCapacity) the tracking cost 9
exceeds the capacity 5, so the deferred `evictIfNeeded` registered before
the early return still runs and evicts the only entry: the state changes. -/
theorem claim2_counterexample :
    (0 : Int) < 1
      ∧ lruPut exState2 1 99 false 0 0 true false ≠ exState2
      ∧ (lruPut exState2 1 99 false 0 0 true false).order = []
      ∧ exState2.order ≠ [] := by
  decide

/-- C2 (amended): a put with tracking usage below 1 never inserts or
updates an entry — the LRU body is untouched and the state equals the input
except for the deferred `evictIfNeeded`, which still runs when `needEvict`
is set; in particular the call is a complete no-op whenever the tracking
cost is within the capacity (or `needEvict` is false). -/
theorem claim2_amended (st : State) (tblID id : Int) (isIndex : Bool) (itemRef : Nat)
    (itemMem : Int) (needEvict needMove : Bool) (hmem : itemMem < 1)
    (hle : st.trackingCost ≤ st.capacity) :
    lruPut st tblID id isIndex itemRef itemMem needEvict needMove
        = (if needEvict then evictIfNeeded st else st)
      ∧ lruPut st tblID id isIndex itemRef itemMem needEvict needMove = st := by
  have hbody : lruPutBody st tblID id isIndex itemRef itemMem needMove = st := by
    unfold lruPutBody
    rw [if_pos hmem]
  constructor
  · unfold lruPut
    rw [hbody]
  · unfold lruPut
    rw [hbody]
    cases needEvict
    · rfl
    · show evictIfNeeded st = st
      exact evictIfNeeded_noop hle

theorem claim2_amended_witness :
    (lruPut twoState 1 99 false 0 0 true false
        = (if true then evictIfNeeded twoState else twoState))
      ∧ lruPut twoState 1 99 false 0 0 true false = twoState :=
  claim2_amended twoState 1 99 false 0 0 true false (by decide) (by decide)

/-- C3: one step of the eviction walk.  With the back entry `e` and the
cost above the capacity, the pass applies `dropEvicted` to `e`'s item,
recomputes its memory usage, always adjusts the cost by the difference,
removes the entry exactly when the new usage is 0 or the item is fully
evicted and otherwise parks it at the front with its stored usage updated,
fires `onEvict` for `e`'s table, and continues with the entries that
preceded `e` (and stops instead whenever the cost is within capacity,
see `evictIfNeeded_noop`). -/
theorem claim3_evict_step (st : State) (front : List Entry) (e : Entry)
    (ho : st.order = front ++ [e]) (hc : st.capacity < st.trackingCost) :
    evictIfNeeded st =
      evictLoop st.capacity front.reverse
        (if ((CacheItem.dropEvicted (heapItem st.heap e.itemRef)).trackingMemUsage == 0
              || (CacheItem.dropEvicted (heapItem st.heap e.itemRef)).isAllEvicted)
         then []
         else [{ e with innerMemUsage :=
              (CacheItem.dropEvicted (heapItem st.heap e.itemRef)).trackingMemUsage }])
        (st.heap.set e.itemRef (CacheItem.dropEvicted (heapItem st.heap e.itemRef)))
        (onEvictUpd (st.heap.set e.itemRef (CacheItem.dropEvicted (heapItem st.heap e.itemRef)))
          e.tblID st.elements)
        (st.trackingCost
          + ((CacheItem.dropEvicted (heapItem st.heap e.itemRef)).trackingMemUsage
              - e.innerMemUsage)) := by
  unfold evictIfNeeded
  rw [ho]
  simp only [List.reverse_append, List.reverse_cons, List.reverse_nil, List.nil_append,
    List.singleton_append]
  simp only [evictLoop]
  rw [if_pos hc]

theorem claim3_witness :
    evictIfNeeded exState2 =
      evictLoop exState2.capacity ([] : List Entry).reverse
        (if ((CacheItem.dropEvicted (heapItem exState2.heap eS2.itemRef)).trackingMemUsage == 0
              || (CacheItem.dropEvicted (heapItem exState2.heap eS2.itemRef)).isAllEvicted)
         then []
         else [{ eS2 with innerMemUsage :=
              (CacheItem.dropEvicted (heapItem exState2.heap eS2.itemRef)).trackingMemUsage }])
        (exState2.heap.set eS2.itemRef (CacheItem.dropEvicted (heapItem exState2.heap eS2.itemRef)))
        (onEvictUpd
          (exState2.heap.set eS2.itemRef (CacheItem.dropEvicted (heapItem exState2.heap eS2.itemRef)))
          eS2.tblID exState2.elements)
        (exState2.trackingCost
          + ((CacheItem.dropEvicted (heapItem exState2.heap eS2.itemRef)).trackingMemUsage
              - eS2.innerMemUsage)) :=
  claim3_evict_step exState2 [] eS2 (by decide) (by decide)

/-- C4 counterexample: after the public SetCapacity in `exState2` the cost 9
still exceeds the capacity 5.  The single item's memory (9) does exceed the
capacity, yet `isAllEvicted` is false — the item was only partially evicted
and parked at the front, so the claim's exception clause fails too. -/
theorem claim4_counterexample :
    exState2.capacity < exState2.trackingCost
      ∧ exState2.capacity < (heapItem exState2.heap 0).trackingMemUsage
      ∧ (heapItem exState2.heap 0).isAllEvicted = false := by
  decide

/-- C4 (amended): the bound Cost() ≤ capacity holds after every public
operation provided a single `dropEvicted` call fully empties an item (each
item carries at most one eviction stage); with multi-stage items an
eviction pass that reaches the front can stop with Cost() above the
capacity while the surviving items are only partially evicted. -/
theorem claim4_amended (h0 : List CacheItem) (s : State)
    (hshort : ∀ i ∈ h0, i.chunks.length ≤ 1) (hr : Reachable h0 s) :
    Cost s ≤ s.capacity :=
  (reachable_short hshort hr).2.2

theorem claim4_witness :
    Cost (Put (newStatsLruCache 10 [⟨[5], 0⟩]) 1 ⟨[(3, 0)], []⟩ false)
      ≤ (Put (newStatsLruCache 10 [⟨[5], 0⟩]) 1 ⟨[(3, 0)], []⟩ false).capacity :=
  claim4_amended [⟨[5], 0⟩] _ (by decide)
    (Reachable.put 1 ⟨[(3, 0)], []⟩ false (Reachable.init 10))

/-- C5: Copy produces a snapshot equal to the source by outer key set and
by Cost at the moment of the call, and the copied inner LRU's front-to-back
order equals the source's (the copy rebuilds the very same state). -/
theorem claim5_copy_preserves (h0 : List CacheItem) (st : State) (hr : Reachable h0 st)
    (_hpos : ∀ e ∈ st.order, 1 ≤ e.innerMemUsage) :
    KeysOf (Copy st) = KeysOf st ∧ Cost (Copy st) = Cost st
      ∧ (Copy st).order = st.order := by
  rw [Copy_eq (reachable_inv hr).1]
  exact ⟨rfl, rfl, rfl⟩

theorem claim5_witness :
    KeysOf (Copy twoState) = KeysOf twoState ∧ Cost (Copy twoState) = Cost twoState
      ∧ (Copy twoState).order = twoState.order :=
  claim5_copy_preserves twoHeap twoState twoState_reachable (by decide)

/-- C6: inner-LRU eviction never removes an outer entry — the outer key
list (hence Len and every tableID's presence) is unchanged by an eviction
pass — and the onEvict callback only recomputes the looked-up entry's
cached tableMemUsage: outer keys are unchanged, entries of other tables are
untouched, and the affected entry keeps its Table object. -/
theorem claim6_evict_frame (st : State) (heap : List CacheItem) (tblID : Int)
    (el : List (Int × OuterElem)) (id : Int) (hne : id ≠ tblID) :
    (evictIfNeeded st).elements.map Prod.fst = st.elements.map Prod.fst
      ∧ Len (evictIfNeeded st) = Len st
      ∧ (onEvictUpd heap tblID el).map Prod.fst = el.map Prod.fst
      ∧ lookupElem (onEvictUpd heap tblID el) id = lookupElem el id
      ∧ (lookupElem (onEvictUpd heap tblID el) tblID).map OuterElem.tbl
          = (lookupElem el tblID).map OuterElem.tbl := by
  refine ⟨?_, ?_, ?_, ?_, ?_⟩
  · have h := congrArg (List.map Prod.fst) (evictIfNeeded_shape st)
    rw [List.map_map, List.map_map] at h
    exact h
  · show (evictIfNeeded st).elements.length = st.elements.length
    have h := congrArg List.length (evictIfNeeded_shape st)
    rw [List.length_map, List.length_map] at h
    exact h
  · have h := congrArg (List.map Prod.fst) (onEvictUpd_shape heap tblID el)
    rw [List.map_map, List.map_map] at h
    exact h
  · unfold onEvictUpd
    split
    · rfl
    · exact lookupElem_updFirst_other hne _ (fun x => rfl)
  · exact lookup_tbl_of_shape (onEvictUpd_shape heap tblID el) tblID

theorem claim6_witness :
    (evictIfNeeded twoState).elements.map Prod.fst = twoState.elements.map Prod.fst
      ∧ Len (evictIfNeeded twoState) = Len twoState
      ∧ (onEvictUpd twoState.heap 1 twoState.elements).map Prod.fst
          = twoState.elements.map Prod.fst
      ∧ lookupElem (onEvictUpd twoState.heap 1 twoState.elements) 2
          = lookupElem twoState.elements 2
      ∧ (lookupElem (onEvictUpd twoState.heap 1 twoState.elements) 1).map OuterElem.tbl
          = (lookupElem twoState.elements 1).map OuterElem.tbl :=
  claim6_evict_frame twoState twoState.heap 1 twoState.elements 2 (by decide)

/-- C7: putting a table that already has an outer entry deletes every
stale tracked id (those of the inner index for that table that are not in
the new table) and puts every column and index of the new table, so every
surviving inner entry of that table carries an id of the new table; in
particular the {A,B} to {A,C} scenario ends with Cost 40 and B absent while
A and C are tracked. -/
theorem claim7_update_diff (h0 : List CacheItem) (st : State) (tblID : Int) (tbl : Table)
    (mv : Bool) (e : Entry) (hr : Reachable h0 st)
    (hex : (lookupElem st.elements tblID).isSome = true)
    (he : e ∈ (Put st tblID tbl mv).order) (ht : e.tblID = tblID) :
    e.id ∈ (if e.isIndex then tbl.indices else tbl.columns).map Prod.fst
      ∧ Cost diffState1 = 40 ∧ Cost diffState2 = 40
      ∧ findEntry diffState2.order 1 2 false = none
      ∧ (findEntry diffState2.order 1 1 false).isSome = true
      ∧ (findEntry diffState2.order 1 3 false).isSome = true :=
  ⟨Put_stale_absent (reachable_inv hr) tbl mv hex e he ht,
   by decide, by decide, by decide, by decide, by decide⟩

theorem claim7_witness :
    (⟨1, 3, false, 2, 20⟩ : Entry).id
        ∈ (if (⟨1, 3, false, 2, 20⟩ : Entry).isIndex then tblAC.indices
           else tblAC.columns).map Prod.fst
      ∧ Cost diffState1 = 40 ∧ Cost diffState2 = 40
      ∧ findEntry diffState2.order 1 2 false = none
      ∧ (findEntry diffState2.order 1 1 false).isSome = true
      ∧ (findEntry diffState2.order 1 3 false).isSome = true :=
  claim7_update_diff diffHeap diffState1 1 tblAC false ⟨1, 3, false, 2, 20⟩
    (Reachable.put 1 tblAB false (Reachable.init 1000))
    (by decide) (by decide) (by decide)

/-- C8: Front on an empty inner LRU returns the zero sentinel without any
partial operation, and on a non-empty LRU it returns the tableID of the
front (most recently used) entry. -/
theorem claim8_front (st1 st2 : State) (e : Entry) (rest : List Entry)
    (h1 : st1.order = []) (h2 : st2.order = e :: rest) :
    Front st1 = 0 ∧ Front st2 = e.tblID := by
  constructor
  · unfold Front
    rw [h1]
  · unfold Front
    rw [h2]

theorem claim8_witness :
    Front (newStatsLruCache 5 []) = 0 ∧ Front twoState = 2 :=
  claim8_front (newStatsLruCache 5 []) twoState ⟨2, 1, false, 1, 60⟩ [] rfl (by decide)

/-- C9: Put followed by Get with moveLRUFront = false returns exactly the
stored table with found = true and no state change, for every starting
state, table and move flag — evictions during the Put only refresh the
cached memory usage, never the stored Table. -/
theorem claim9_put_get (st : State) (tblID : Int) (tbl : Table) (mv : Bool) :
    Get (Put st tblID tbl mv) tblID false = (some tbl, Put st tblID tbl mv) := by
  have h := putInner_lookup_self st tblID tbl (tbl.memoryUsage st.heap) mv
  unfold Put
  unfold Get
  rw [if_neg (by simp)]
  rw [h]

/-- C10: after every completed public operation, every entry in the inner
LRU belongs to a table that is present in the outer map. -/
theorem claim10_inner_backed (h0 : List CacheItem) (s : State) (hr : Reachable h0 s)
    (e : Entry) (he : e ∈ s.order) :
    (lookupElem s.elements e.tblID).isSome = true := by
  obtain ⟨elem, hl, _⟩ := (reachable_inv hr).2 e he
  rw [hl]
  rfl

theorem claim10_witness : (lookupElem twoState.elements (2 : Int)).isSome = true :=
  claim10_inner_backed twoHeap twoState twoState_reachable ⟨2, 1, false, 1, 60⟩ (by decide)

end StatsLru
